import Mathlib

/-!
Verification of the amphipod-sorting solver (`src/main.rs`).

The Rust program is embedded shallowly: `VecDeque` fronts become list heads,
the mutable `Room` becomes a functional record, fallible operations (`unwrap`)
become `Option`, the `while` loops become fuel-indexed recursions whose fuel is
proved sufficient via an explicit potential function.
-/

set_option maxHeartbeats 1000000

inductive Amphipod where
  | Amber
  | Bronze
  | Copper
  | Desert
deriving DecidableEq, Repr

def Amphipod.get_destination_cup_index : Amphipod → Nat
  | .Amber => 0
  | .Bronze => 1
  | .Copper => 2
  | .Desert => 3

def Amphipod.get_cost_per_move : Amphipod → Nat
  | .Amber => 1
  | .Bronze => 10
  | .Copper => 100
  | .Desert => 1000

structure Cup where
  capacity : Nat
  content : List Amphipod
deriving DecidableEq, Repr

instance : Inhabited Cup := ⟨⟨0, []⟩⟩

def Cup.is_empty (c : Cup) : Bool := c.content.isEmpty

def Cup.is_full (c : Cup) : Bool := c.content.length == c.capacity

structure Room where
  placeholders : List (Option Amphipod)
  cups : List Cup
deriving DecidableEq, Repr

def Room.PLACEHOLDER_POSITIONS : List Nat := [0, 1, 3, 5, 7, 9, 10]

def Room.CUP_POSITIONS : List Nat := [2, 4, 6, 8]

def Room.is_ordered (room : Room) : Bool :=
  room.cups.enum.all fun ic =>
    ic.2.content.length == ic.2.capacity &&
      ic.2.content.all fun a => a.get_destination_cup_index == ic.1

def Room.move_amphipod_to_placeholder (room : Room) (origin_cup_index placeholder : Nat) :
    Option (Room × Nat) :=
  match room.cups.get? origin_cup_index with
  | none => none
  | some origin_cup =>
    match origin_cup.content with
    | [] => none
    | amphipod :: rest =>
      match Room.PLACEHOLDER_POSITIONS.get? placeholder,
            Room.CUP_POSITIONS.get? origin_cup_index with
      | some php, some cupp =>
        let room' : Room :=
          { placeholders := room.placeholders.set placeholder (some amphipod),
            cups := room.cups.set origin_cup_index
              { capacity := origin_cup.capacity, content := rest } }
        let horizontal_distance := Nat.dist php cupp
        let vertical_distance := origin_cup.capacity - rest.length
        some (room', (vertical_distance + horizontal_distance) * amphipod.get_cost_per_move)
      | _, _ => none

def Room.move_amphipod_from_placeholder_to_destination (room : Room)
    (placeholder destination_cup_index : Nat) : Option (Room × Nat) :=
  match room.cups.get? destination_cup_index with
  | none => none
  | some destination_cup =>
    match room.placeholders.getD placeholder none with
    | none => none
    | some amphipod =>
      match Room.PLACEHOLDER_POSITIONS.get? placeholder,
            Room.CUP_POSITIONS.get? destination_cup_index with
      | some php, some cupp =>
        let newContent := amphipod :: destination_cup.content
        let room' : Room :=
          { placeholders := room.placeholders.set placeholder none,
            cups := room.cups.set destination_cup_index
              { capacity := destination_cup.capacity, content := newContent } }
        let horizontal_distance := Nat.dist php cupp
        let vertical_distance := 1 + destination_cup.capacity - newContent.length
        some (room', (vertical_distance + horizontal_distance) * amphipod.get_cost_per_move)
      | _, _ => none

def Room.move_amphipod_from_origin_to_destination (room : Room)
    (origin_cup_index destination_cup_index : Nat) : Option (Room × Nat) :=
  match room.cups.get? origin_cup_index with
  | none => none
  | some origin_cup =>
    match origin_cup.content with
    | [] => none
    | amphipod :: rest =>
      let cups1 := room.cups.set origin_cup_index
        { capacity := origin_cup.capacity, content := rest }
      match cups1.get? destination_cup_index with
      | none => none
      | some destination_cup =>
        let cups2 := cups1.set destination_cup_index
          { capacity := destination_cup.capacity, content := amphipod :: destination_cup.content }
        match cups2.get? origin_cup_index, cups2.get? destination_cup_index,
              Room.CUP_POSITIONS.get? origin_cup_index,
              Room.CUP_POSITIONS.get? destination_cup_index with
        | some ocup, some dcup, some opos, some dpos =>
          let horizontal_distance := Nat.dist opos dpos
          let vertical_distance :=
            ocup.capacity - ocup.content.length + dcup.capacity - dcup.content.length + 1
          some (⟨room.placeholders, cups2⟩,
            (vertical_distance + horizontal_distance) * amphipod.get_cost_per_move)
        | _, _, _, _ => none

def Room.get_available_placeholders (room : Room) (cup_number : Nat) : List Nat :=
  let left := (List.range (cup_number + 2)).reverse.takeWhile fun index =>
    (room.placeholders.getD index none).isNone
  let right :=
    (List.range' (cup_number + 2) (room.placeholders.length - (cup_number + 2))).takeWhile
      fun index => (room.placeholders.getD index none).isNone
  left ++ right

def Room.check_destination (room : Room) (destination_cup_index : Nat) : Bool :=
  let cup := room.cups.getD destination_cup_index default
  !cup.is_full && cup.content.all fun amphipod =>
    amphipod.get_destination_cup_index == destination_cup_index

def Room.check_path_placeholder_destination (room : Room)
    (placeholder destination_cup : Nat) : Bool :=
  if placeholder < destination_cup + 1 then
    (List.range' (placeholder + 1) (destination_cup + 2 - (placeholder + 1))).all fun i =>
      (room.placeholders.getD i none).isNone
  else if destination_cup < placeholder + 1 then
    (List.range' (destination_cup + 2) (placeholder - (destination_cup + 2))).all fun i =>
      (room.placeholders.getD i none).isNone
  else true

def Room.check_path_origin_destination (room : Room)
    (origin_cup destination_cup : Nat) : Bool :=
  if origin_cup < destination_cup then
    (List.range' (origin_cup + 2) (destination_cup + 2 - (origin_cup + 2))).all fun i =>
      (room.placeholders.getD i none).isNone
  else if destination_cup < origin_cup then
    (List.range' (destination_cup + 2) (origin_cup + 2 - (destination_cup + 2))).all fun i =>
      (room.placeholders.getD i none).isNone
  else true

structure WalkState where
  room : Room
  cost : Nat
deriving DecidableEq, Repr

def WalkState.expand_cup (s : WalkState) (cup_index : Nat) (cup : Cup) : List WalkState :=
  if cup.content.all fun a => a.get_destination_cup_index == cup_index then []
  else
    (s.room.get_available_placeholders cup_index).filterMap fun available_placeholder =>
      match s.room.move_amphipod_to_placeholder cup_index available_placeholder with
      | some rc => some ⟨rc.1, s.cost + rc.2⟩
      | none => none

def WalkState.get_next_states (s : WalkState) : List WalkState :=
  s.room.cups.enum.foldl (fun res ic => res ++ s.expand_cup ic.1 ic.2) []

def WalkState.progress_cup_step (acc : WalkState × Bool) (cup_index : Nat) :
    WalkState × Bool :=
  match (acc.1.room.cups.getD cup_index default).content.head? with
  | some amphipod =>
    if cup_index != amphipod.get_destination_cup_index
        && acc.1.room.check_destination amphipod.get_destination_cup_index
        && acc.1.room.check_path_origin_destination cup_index
            amphipod.get_destination_cup_index then
      match acc.1.room.move_amphipod_from_origin_to_destination cup_index
          amphipod.get_destination_cup_index with
      | some rc => (⟨rc.1, acc.1.cost + rc.2⟩, true)
      | none => acc
    else acc
  | none => acc

def WalkState.progress_placeholder_step (acc : WalkState × Bool) (placeholder_index : Nat) :
    WalkState × Bool :=
  match acc.1.room.placeholders.getD placeholder_index none with
  | some amphipod =>
    if acc.1.room.check_destination amphipod.get_destination_cup_index
        && acc.1.room.check_path_placeholder_destination placeholder_index
            amphipod.get_destination_cup_index then
      match acc.1.room.move_amphipod_from_placeholder_to_destination placeholder_index
          amphipod.get_destination_cup_index with
      | some rc => (⟨rc.1, acc.1.cost + rc.2⟩, true)
      | none => acc
    else acc
  | none => acc

def WalkState.try_progress (s : WalkState) : WalkState × Bool :=
  let step1 := (List.range s.room.cups.length).foldl WalkState.progress_cup_step (s, false)
  (List.range step1.1.room.placeholders.length).foldl WalkState.progress_placeholder_step step1

/-- Verification helper: index-aware sum over a list, used to build potential
functions and token counts. -/
def sumIdxFrom (f : Nat → α → Nat) : Nat → List α → Nat
  | _, [] => 0
  | n, a :: t => f n a + sumIdxFrom f (n + 1) t

/-- Verification helper: potential contributed by one cup.  A cup whose whole
content is already home contributes nothing; any other cup contributes twice
its occupancy (each of its tokens still has at most two moves left). -/
def cupPotential (index : Nat) (cup : Cup) : Nat :=
  if cup.content.all fun a => a.get_destination_cup_index == index then 0
  else 2 * cup.content.length

/-- Verification helper: potential contributed by one corridor slot (an
occupied slot's token has at most one move left). -/
def placeholderPotential (_index : Nat) (slot : Option Amphipod) : Nat :=
  match slot with
  | some _ => 1
  | none => 0

/-- Verification helper: an upper bound on the number of moves any run of the
program can still perform from this room; every single move performed by
`try_progress` or `get_next_states` strictly decreases it. -/
def Room.potential (room : Room) : Nat :=
  sumIdxFrom cupPotential 0 room.cups + sumIdxFrom placeholderPotential 0 room.placeholders

def WalkState.progressFuel : Nat → WalkState → WalkState
  | 0, s => s
  | fuel + 1, s =>
    if s.try_progress.2 then WalkState.progressFuel fuel s.try_progress.1 else s

/-- `WalkState::progress`: `while self.try_progress() {}`.  The fuel
`room.potential + 1` provably suffices to reach the loop's fixpoint. -/
def WalkState.progress (s : WalkState) : WalkState :=
  s.progressFuel (s.room.potential + 1)

def WalkState.project_ph_term (res : Nat) (ip : Nat × Option Amphipod) : Nat :=
  match ip.2 with
  | some amphipod =>
    res + (1 + Nat.dist (Room.PLACEHOLDER_POSITIONS.getD ip.1 0)
      (Room.CUP_POSITIONS.getD amphipod.get_destination_cup_index 0))
      * amphipod.get_cost_per_move
  | none => res

def WalkState.project_cup_term (res : Nat) (ic : Nat × Cup) : Nat :=
  ic.2.content.foldl (fun res amphipod =>
    if ic.1 != amphipod.get_destination_cup_index then
      res + (2 + Nat.dist (Room.CUP_POSITIONS.getD ic.1 0)
        (Room.CUP_POSITIONS.getD amphipod.get_destination_cup_index 0))
        * amphipod.get_cost_per_move
    else res) res

def WalkState.project_costs (s : WalkState) : Nat :=
  let res := s.room.placeholders.enum.foldl WalkState.project_ph_term s.cost
  s.room.cups.enum.foldl WalkState.project_cup_term res

/-- One iteration of the `while let Some(current_state) = stack.pop_back()`
loop of `simulate_ordering`; `none` when the work list is exhausted.
The list head is the back of the Rust `VecDeque`. -/
def simulateStep : List WalkState → Nat → Option (List WalkState × Nat)
  | [], _ => none
  | current_state :: rest, min_score =>
    if min_score < current_state.cost then some (rest, min_score)
    else if min_score < current_state.project_costs then some (rest, min_score)
    else if (current_state.progress).room.is_ordered then
      some (rest, min min_score (current_state.progress).cost)
    else
      some ((current_state.progress).get_next_states.reverse ++ rest, min_score)

def simulateLoopFuel : Nat → List WalkState → Nat → Nat
  | 0, _, min_score => min_score
  | fuel + 1, stack, min_score =>
    match simulateStep stack min_score with
    | none => min_score
    | some sm => simulateLoopFuel fuel sm.1 sm.2

/-- Verification helper: base used in the work-list termination measure; it
strictly exceeds the number of successors any state of this shape can have. -/
def searchBound (s : WalkState) : Nat :=
  s.room.cups.length * (s.room.cups.length + 1 + s.room.placeholders.length) + 2

/-- Verification helper: termination measure for the search loop; every
`simulateStep` strictly decreases it, so it bounds the number of iterations. -/
def stackMeasure : List WalkState → Nat
  | [] => 0
  | s :: rest => searchBound s ^ (1 + s.room.potential) + stackMeasure rest

def U32_MAX : Nat := 4294967295

/-- `simulate_ordering`: seeds the work list with the initial state and runs
the branch-and-bound loop; `stackMeasure` fuel provably suffices for the loop
to exhaust the work list. -/
def simulate_ordering (init_room : Room) : Nat :=
  simulateLoopFuel (stackMeasure [⟨init_room, 0⟩]) [⟨init_room, 0⟩] U32_MAX

/-! ## Verification-layer definitions -/

/-- Verification helper: plain sum of `f` over a list. -/
def sumBy (f : α → Nat) : List α → Nat
  | [] => 0
  | a :: t => f a + sumBy f t

/-- The admissible-heuristic contribution of one corridor slot, as summed by
`project_costs`. -/
def phHeur (index : Nat) (slot : Option Amphipod) : Nat :=
  match slot with
  | some a =>
    (1 + Nat.dist (Room.PLACEHOLDER_POSITIONS.getD index 0)
      (Room.CUP_POSITIONS.getD a.get_destination_cup_index 0)) * a.get_cost_per_move
  | none => 0

/-- The admissible-heuristic contribution of one token sitting in cup `index`,
as summed by `project_costs`. -/
def cupTokenHeur (index : Nat) (a : Amphipod) : Nat :=
  if index ≠ a.get_destination_cup_index then
    (2 + Nat.dist (Room.CUP_POSITIONS.getD index 0)
      (Room.CUP_POSITIONS.getD a.get_destination_cup_index 0)) * a.get_cost_per_move
  else 0

/-- The admissible-heuristic contribution of one whole cup. -/
def cupHeur (index : Nat) (cup : Cup) : Nat := sumBy (cupTokenHeur index) cup.content

/-- The heuristic part of `project_costs` (everything except the accumulated
cost). -/
def Room.heur (room : Room) : Nat :=
  sumIdxFrom phHeur 0 room.placeholders + sumIdxFrom cupHeur 0 room.cups

/-- Count of corridor tokens of kind `k` in one slot. -/
def phKind (k : Amphipod) (_index : Nat) (slot : Option Amphipod) : Nat :=
  match slot with
  | some a => if a = k then 1 else 0
  | none => 0

/-- Count of tokens of kind `k` in one cup. -/
def cupKind (k : Amphipod) (_index : Nat) (cup : Cup) : Nat := cup.content.count k

/-- Total number of tokens of kind `k` on the board. -/
def Room.countKind (room : Room) (k : Amphipod) : Nat :=
  sumIdxFrom (phKind k) 0 room.placeholders + sumIdxFrom (cupKind k) 0 room.cups

/-- Structural well-formedness: the fixed sizes of the Rust arrays
`[Option<Amphipod>; 7]` and `[Cup; 4]`. -/
def Room.lengthsWf (room : Room) : Prop :=
  room.placeholders.length = 7 ∧ room.cups.length = 4

/-- Every cup respects its capacity. -/
def Room.capsWf (room : Room) : Prop :=
  ∀ cup ∈ room.cups, cup.content.length ≤ cup.capacity

/-- A well-formed board. -/
def Room.wf (room : Room) : Prop := room.lengthsWf ∧ room.capsWf

instance : Fintype Amphipod :=
  ⟨⟨{Amphipod.Amber, Amphipod.Bronze, Amphipod.Copper, Amphipod.Desert}, by decide⟩,
    by intro x; cases x <;> decide⟩

/-- A complete, balanced token population: each kind has exactly as many
tokens as its destination cup can hold. -/
def Room.balanced (room : Room) : Prop :=
  ∀ k : Amphipod, room.countKind k =
    (room.cups.getD k.get_destination_cup_index default).capacity

/-- One legal move of the game, with its cost, exactly as the program's
legality checks define it: a token may leave any cup for a reachable corridor
slot, and a token may enter only its own destination cup, when that cup
accepts it and the corridor path is clear. -/
inductive LegalStep : Room → Room → Nat → Prop
  | toPlaceholder (room : Room) (i p : Nat) (r : Room) (c : Nat) :
      p ∈ room.get_available_placeholders i →
      room.move_amphipod_to_placeholder i p = some (r, c) →
      LegalStep room r c
  | fromPlaceholder (room : Room) (p : Nat) (a : Amphipod) (r : Room) (c : Nat) :
      room.placeholders.getD p none = some a →
      room.check_destination a.get_destination_cup_index = true →
      room.check_path_placeholder_destination p a.get_destination_cup_index = true →
      room.move_amphipod_from_placeholder_to_destination p a.get_destination_cup_index
        = some (r, c) →
      LegalStep room r c
  | direct (room : Room) (i : Nat) (a : Amphipod) (r : Room) (c : Nat) :
      (room.cups.getD i default).content.head? = some a →
      i ≠ a.get_destination_cup_index →
      room.check_destination a.get_destination_cup_index = true →
      room.check_path_origin_destination i a.get_destination_cup_index = true →
      room.move_amphipod_from_origin_to_destination i a.get_destination_cup_index
        = some (r, c) →
      LegalStep room r c

/-- A legal move sequence of total cost `c` that ends in a fully ordered
board. -/
inductive SortsIn : Room → Nat → Prop
  | done (room : Room) : room.is_ordered = true → SortsIn room 0
  | step (room r : Room) (c rest : Nat) :
      LegalStep room r c → SortsIn r rest → SortsIn room (c + rest)

/-- Reachability by legal moves (costs forgotten). -/
def ReachRoom (room r : Room) : Prop :=
  Relation.ReflTransGen (fun x y => ∃ c, LegalStep x y c) room r

/-- States produced during the search: the initial state, every settled state,
and every generated successor. -/
inductive SearchReachable (init : WalkState) : WalkState → Prop
  | refl : SearchReachable init init
  | settle (s : WalkState) : SearchReachable init s → SearchReachable init s.progress
  | expand (s s' : WalkState) : SearchReachable init s → s' ∈ s.get_next_states →
      SearchReachable init s'

/-! ## List-level helper lemmas -/

theorem sumIdxFrom_set (f : Nat → α → Nat) (x y : α) :
    ∀ (l : List α) (n i : Nat), l.get? i = some y →
      sumIdxFrom f n (l.set i x) + f (n + i) y = sumIdxFrom f n l + f (n + i) x := by
  intro l
  induction l with
  | nil => intro n i h; simp at h
  | cons a t ih =>
    intro n i h
    cases i with
    | zero =>
      simp only [List.get?_cons_zero, Option.some_inj] at h
      subst h
      simp [sumIdxFrom]
      omega
    | succ j =>
      simp only [List.get?_cons_succ] at h
      have e : n + 1 + j = n + (j + 1) := by omega
      have := ih (n + 1) j h
      rw [e] at this
      simp only [List.set_cons_succ, sumIdxFrom]
      omega

theorem sumIdxFrom_ge (f : Nat → α → Nat) (y : α) :
    ∀ (l : List α) (n i : Nat), l.get? i = some y → f (n + i) y ≤ sumIdxFrom f n l := by
  intro l
  induction l with
  | nil => intro n i h; simp at h
  | cons a t ih =>
    intro n i h
    cases i with
    | zero =>
      simp only [List.get?_cons_zero, Option.some_inj] at h
      subst h
      simp [sumIdxFrom]
    | succ j =>
      simp only [List.get?_cons_succ] at h
      have e : n + 1 + j = n + (j + 1) := by omega
      have := ih (n + 1) j h
      rw [e] at this
      simp only [sumIdxFrom]
      omega

theorem foldl_project_ph (l : List (Option Amphipod)) :
    ∀ (n c : Nat), (List.enumFrom n l).foldl WalkState.project_ph_term c
      = c + sumIdxFrom phHeur n l := by
  induction l with
  | nil => intro n c; simp [sumIdxFrom]
  | cons a t ih =>
    intro n c
    simp only [List.enumFrom, List.foldl_cons, sumIdxFrom]
    rw [ih]
    cases a <;> simp [WalkState.project_ph_term, phHeur] <;> omega

theorem project_cup_term_eq (res : Nat) (ic : Nat × Cup) :
    WalkState.project_cup_term res ic = res + cupHeur ic.1 ic.2 := by
  obtain ⟨i, cup⟩ := ic
  show WalkState.project_cup_term res (i, cup) = res + cupHeur i cup
  unfold WalkState.project_cup_term cupHeur
  obtain ⟨cap, l⟩ := cup
  show List.foldl _ res l = res + sumBy (cupTokenHeur i) l
  induction l generalizing res with
  | nil => simp [sumBy]
  | cons a t ih =>
    simp only [List.foldl_cons, sumBy, ih]
    by_cases h : i = a.get_destination_cup_index
    · simp [h, cupTokenHeur]
    · rw [if_pos (by simpa using h), cupTokenHeur, if_pos h]
      omega

theorem foldl_project_cup (l : List Cup) :
    ∀ (n c : Nat), (List.enumFrom n l).foldl WalkState.project_cup_term c
      = c + sumIdxFrom cupHeur n l := by
  induction l with
  | nil => intro n c; simp [sumIdxFrom]
  | cons a t ih =>
    intro n c
    simp only [List.enumFrom, List.foldl_cons, sumIdxFrom]
    rw [project_cup_term_eq, ih]
    simp only [Prod.fst, Prod.snd]
    omega

theorem project_costs_eq (s : WalkState) : s.project_costs = s.cost + s.room.heur := by
  unfold WalkState.project_costs Room.heur
  rw [List.enum_eq_enumFrom, List.enum_eq_enumFrom, foldl_project_ph, foldl_project_cup]
  omega

theorem all_enumFrom {p : Nat × α → Bool} :
    ∀ (l : List α) (n : Nat), (List.enumFrom n l).all p = true ↔
      ∀ i x, l.get? i = some x → p (n + i, x) = true := by
  intro l
  induction l with
  | nil => intro n; simp
  | cons a t ih =>
    intro n
    simp only [List.enumFrom, List.all_cons, Bool.and_eq_true, ih]
    constructor
    · rintro ⟨h0, h⟩ i x hx
      cases i with
      | zero => simp only [List.get?_cons_zero, Option.some_inj] at hx; subst hx; simpa using h0
      | succ j =>
        simp only [List.get?_cons_succ] at hx
        have := h j x hx
        have e : n + 1 + j = n + (j + 1) := by omega
        rwa [e] at this
    · intro h
      constructor
      · simpa using h 0 a (by simp)
      · intro i x hx
        have := h (i + 1) x (by simpa using hx)
        have e : n + (i + 1) = n + 1 + i := by omega
        rwa [e] at this

theorem is_ordered_iff (room : Room) : room.is_ordered = true ↔
    ∀ i cup, room.cups.get? i = some cup →
      cup.content.length = cup.capacity ∧
        ∀ a ∈ cup.content, a.get_destination_cup_index = i := by
  unfold Room.is_ordered
  rw [List.enum_eq_enumFrom, all_enumFrom]
  constructor
  · intro h i cup hcup
    have := h i cup hcup
    simp only [Nat.zero_add, Bool.and_eq_true, beq_iff_eq, List.all_eq_true] at this
    exact ⟨this.1, fun a ha => by simpa using this.2 a ha⟩
  · intro h i cup hcup
    have := h i cup hcup
    simp only [Nat.zero_add, Bool.and_eq_true, beq_iff_eq, List.all_eq_true]
    exact ⟨this.1, fun a ha => by simpa using this.2 a ha⟩

/-! ## Inversion and introduction lemmas for the move primitives -/

theorem move_to_placeholder_elim {room : Room} {i p : Nat} {r : Room} {c : Nat}
    (h : room.move_amphipod_to_placeholder i p = some (r, c)) :
    ∃ cap a rest php cupp,
      room.cups.get? i = some ⟨cap, a :: rest⟩ ∧
      Room.PLACEHOLDER_POSITIONS.get? p = some php ∧
      Room.CUP_POSITIONS.get? i = some cupp ∧
      r = ⟨room.placeholders.set p (some a), room.cups.set i ⟨cap, rest⟩⟩ ∧
      c = (cap - rest.length + Nat.dist php cupp) * a.get_cost_per_move := by
  unfold Room.move_amphipod_to_placeholder at h
  cases hc : room.cups.get? i with
  | none => rw [hc] at h; simp at h
  | some origin_cup =>
    rw [hc] at h
    obtain ⟨cap, content⟩ := origin_cup
    cases content with
    | nil => simp at h
    | cons a rest =>
      cases hp : Room.PLACEHOLDER_POSITIONS.get? p with
      | none => rw [hp] at h; simp at h
      | some php =>
        cases hq : Room.CUP_POSITIONS.get? i with
        | none => rw [hp, hq] at h; simp at h
        | some cupp =>
          rw [hp, hq] at h
          simp only [Option.some_inj, Prod.mk.injEq] at h
          exact ⟨cap, a, rest, php, cupp, rfl, rfl, rfl, h.1.symm, h.2.symm⟩

theorem move_to_placeholder_intro (room : Room) {i p : Nat} {cap : Nat} {a : Amphipod}
    {rest : List Amphipod} {php cupp : Nat}
    (hc : room.cups.get? i = some ⟨cap, a :: rest⟩)
    (hp : Room.PLACEHOLDER_POSITIONS.get? p = some php)
    (hq : Room.CUP_POSITIONS.get? i = some cupp) :
    room.move_amphipod_to_placeholder i p =
      some (⟨room.placeholders.set p (some a), room.cups.set i ⟨cap, rest⟩⟩,
        (cap - rest.length + Nat.dist php cupp) * a.get_cost_per_move) := by
  unfold Room.move_amphipod_to_placeholder
  rw [hc]
  simp only
  rw [hp, hq]

theorem move_from_placeholder_elim {room : Room} {p d : Nat} {r : Room} {c : Nat}
    (h : room.move_amphipod_from_placeholder_to_destination p d = some (r, c)) :
    ∃ cap cont a php cupp,
      room.cups.get? d = some ⟨cap, cont⟩ ∧
      room.placeholders.getD p none = some a ∧
      Room.PLACEHOLDER_POSITIONS.get? p = some php ∧
      Room.CUP_POSITIONS.get? d = some cupp ∧
      r = ⟨room.placeholders.set p none, room.cups.set d ⟨cap, a :: cont⟩⟩ ∧
      c = (1 + cap - (a :: cont).length + Nat.dist php cupp) * a.get_cost_per_move := by
  unfold Room.move_amphipod_from_placeholder_to_destination at h
  cases hc : room.cups.get? d with
  | none => rw [hc] at h; simp at h
  | some destination_cup =>
    rw [hc] at h
    obtain ⟨cap, cont⟩ := destination_cup
    cases hg : room.placeholders.getD p none with
    | none => rw [hg] at h; simp at h
    | some a =>
      rw [hg] at h
      cases hp : Room.PLACEHOLDER_POSITIONS.get? p with
      | none => rw [hp] at h; simp at h
      | some php =>
        cases hq : Room.CUP_POSITIONS.get? d with
        | none => rw [hp, hq] at h; simp at h
        | some cupp =>
          rw [hp, hq] at h
          simp only [Option.some_inj, Prod.mk.injEq] at h
          exact ⟨cap, cont, a, php, cupp, rfl, rfl, rfl, rfl, h.1.symm, h.2.symm⟩

theorem move_from_placeholder_intro (room : Room) {p d : Nat} {cap : Nat}
    {cont : List Amphipod} {a : Amphipod} {php cupp : Nat}
    (hc : room.cups.get? d = some ⟨cap, cont⟩)
    (hg : room.placeholders.getD p none = some a)
    (hp : Room.PLACEHOLDER_POSITIONS.get? p = some php)
    (hq : Room.CUP_POSITIONS.get? d = some cupp) :
    room.move_amphipod_from_placeholder_to_destination p d =
      some (⟨room.placeholders.set p none, room.cups.set d ⟨cap, a :: cont⟩⟩,
        (1 + cap - (a :: cont).length + Nat.dist php cupp) * a.get_cost_per_move) := by
  unfold Room.move_amphipod_from_placeholder_to_destination
  rw [hc]
  simp only
  rw [hg]
  simp only
  rw [hp, hq]

theorem move_origin_destination_elim {room : Room} {i d : Nat} {r : Room} {c : Nat}
    (h : room.move_amphipod_from_origin_to_destination i d = some (r, c)) :
    ∃ capo a rest capd cont opos dpos ocup dcup,
      room.cups.get? i = some ⟨capo, a :: rest⟩ ∧
      (room.cups.set i ⟨capo, rest⟩).get? d = some ⟨capd, cont⟩ ∧
      Room.CUP_POSITIONS.get? i = some opos ∧
      Room.CUP_POSITIONS.get? d = some dpos ∧
      (((room.cups.set i ⟨capo, rest⟩).set d ⟨capd, a :: cont⟩).get? i = some ocup) ∧
      (((room.cups.set i ⟨capo, rest⟩).set d ⟨capd, a :: cont⟩).get? d = some dcup) ∧
      r = ⟨room.placeholders, (room.cups.set i ⟨capo, rest⟩).set d ⟨capd, a :: cont⟩⟩ ∧
      c = (ocup.capacity - ocup.content.length + dcup.capacity - dcup.content.length + 1
            + Nat.dist opos dpos) * a.get_cost_per_move := by
  unfold Room.move_amphipod_from_origin_to_destination at h
  cases hc : room.cups.get? i with
  | none => rw [hc] at h; simp at h
  | some origin_cup =>
    rw [hc] at h
    obtain ⟨capo, content⟩ := origin_cup
    cases content with
    | nil => simp at h
    | cons a rest =>
      simp only at h
      cases hd : (room.cups.set i ⟨capo, rest⟩).get? d with
      | none => rw [hd] at h; simp at h
      | some destination_cup =>
        rw [hd] at h
        obtain ⟨capd, cont⟩ := destination_cup
        simp only at h
        cases ho : ((room.cups.set i ⟨capo, rest⟩).set d ⟨capd, a :: cont⟩).get? i with
        | none => rw [ho] at h; simp at h
        | some ocup =>
          rw [ho] at h
          cases hd2 : ((room.cups.set i ⟨capo, rest⟩).set d ⟨capd, a :: cont⟩).get? d with
          | none => rw [hd2] at h; simp at h
          | some dcup =>
            rw [hd2] at h
            cases hop : Room.CUP_POSITIONS.get? i with
            | none => rw [hop] at h; simp at h
            | some opos =>
              cases hdp : Room.CUP_POSITIONS.get? d with
              | none => rw [hop, hdp] at h; simp at h
              | some dpos =>
                rw [hop, hdp] at h
                simp only [Option.some_inj, Prod.mk.injEq] at h
                exact ⟨capo, a, rest, capd, cont, opos, dpos, ocup, dcup, rfl, hd, rfl, rfl,
                  ho, hd2, h.1.symm, h.2.symm⟩

theorem move_origin_destination_intro (room : Room) {i d : Nat} {capo : Nat} {a : Amphipod}
    {rest : List Amphipod} {capd : Nat} {cont : List Amphipod} {opos dpos : Nat}
    {ocup dcup : Cup}
    (hc : room.cups.get? i = some ⟨capo, a :: rest⟩)
    (hd : (room.cups.set i ⟨capo, rest⟩).get? d = some ⟨capd, cont⟩)
    (hop : Room.CUP_POSITIONS.get? i = some opos)
    (hdp : Room.CUP_POSITIONS.get? d = some dpos)
    (ho : ((room.cups.set i ⟨capo, rest⟩).set d ⟨capd, a :: cont⟩).get? i = some ocup)
    (hd2 : ((room.cups.set i ⟨capo, rest⟩).set d ⟨capd, a :: cont⟩).get? d = some dcup) :
    room.move_amphipod_from_origin_to_destination i d =
      some (⟨room.placeholders, (room.cups.set i ⟨capo, rest⟩).set d ⟨capd, a :: cont⟩⟩,
        (ocup.capacity - ocup.content.length + dcup.capacity - dcup.content.length + 1
          + Nat.dist opos dpos) * a.get_cost_per_move) := by
  unfold Room.move_amphipod_from_origin_to_destination
  rw [hc]
  simp only
  rw [hd]
  simp only
  rw [ho, hd2, hop, hdp]

/-! ## Basic characterizations -/

theorem dest_lt_four (a : Amphipod) : a.get_destination_cup_index < 4 := by
  cases a <;> simp [Amphipod.get_destination_cup_index]

theorem cup_positions_get {i : Nat} (h : i < 4) :
    Room.CUP_POSITIONS.get? i = some (Room.CUP_POSITIONS.getD i 0) := by
  interval_cases i <;> rfl

theorem placeholder_positions_get {p : Nat} (h : p < 7) :
    Room.PLACEHOLDER_POSITIONS.get? p = some (Room.PLACEHOLDER_POSITIONS.getD p 0) := by
  interval_cases p <;> rfl

theorem getD_ph_some {l : List (Option Amphipod)} {p : Nat} {a : Amphipod}
    (h : l.getD p none = some a) : l.get? p = some (some a) := by
  rw [List.getD_eq_get?] at h
  cases hq : l.get? p with
  | none => rw [hq] at h; simp at h
  | some v => rw [hq] at h; simp only [Option.getD_some] at h; rw [h]

theorem getD_ph_none_lt {l : List (Option Amphipod)} {p : Nat}
    (h : l.getD p none = none) (hlt : p < l.length) : l.get? p = some none := by
  rw [List.getD_eq_get?] at h
  cases hq : l.get? p with
  | none =>
    rw [List.get?_eq_getElem?] at hq
    rw [List.getElem?_eq_none_iff] at hq
    omega
  | some v => rw [hq] at h; simp only [Option.getD_some] at h; rw [h]

theorem head_getD_elim {room : Room} {i : Nat} {a : Amphipod}
    (h : (room.cups.getD i default).content.head? = some a) :
    ∃ cap rest, room.cups.get? i = some ⟨cap, a :: rest⟩ := by
  rw [List.getD_eq_get?] at h
  cases hq : room.cups.get? i with
  | none =>
    rw [hq] at h
    have : (Option.getD (α := Cup) none default).content.head? = none := rfl
    rw [this] at h
    exact absurd h (by simp)
  | some cup =>
    rw [hq] at h
    obtain ⟨cap, cont⟩ := cup
    cases cont with
    | nil => simp at h
    | cons b rest =>
      simp only [Option.getD_some, List.head?_cons, Option.some_inj] at h
      subst h
      exact ⟨cap, rest, rfl⟩

theorem check_destination_elim {room : Room} {d : Nat} (h : room.check_destination d = true) :
    ∃ cap cont, room.cups.get? d = some ⟨cap, cont⟩ ∧ cont.length ≠ cap ∧
      cont.all (fun x => x.get_destination_cup_index == d) = true := by
  unfold Room.check_destination at h
  rw [List.getD_eq_get?] at h
  cases hq : room.cups.get? d with
  | none =>
    rw [hq] at h
    have hfalse : (let cup := Option.getD (α := Cup) none default;
        !cup.is_full && cup.content.all fun amphipod =>
          amphipod.get_destination_cup_index == d) = false := rfl
    rw [hfalse] at h
    exact Bool.noConfusion h
  | some cup =>
    rw [hq] at h
    obtain ⟨cap, cont⟩ := cup
    simp only [Option.getD_some, Bool.and_eq_true, Bool.not_eq_eq_eq_not, Bool.not_true] at h
    refine ⟨cap, cont, rfl, ?_, h.2⟩
    have := h.1
    simp [Cup.is_full] at this
    exact this

theorem available_placeholders_spec {room : Room} {i p : Nat}
    (h : p ∈ room.get_available_placeholders i) :
    room.placeholders.getD p none = none ∧ (p < i + 2 ∨ p < room.placeholders.length) := by
  unfold Room.get_available_placeholders at h
  rcases List.mem_append.mp h with hl | hr
  · have hp := List.mem_takeWhile_imp hl
    have hm := List.takeWhile_subset _ hl
    rw [List.mem_reverse, List.mem_range] at hm
    exact ⟨by simpa using hp, Or.inl (by omega)⟩
  · have hp := List.mem_takeWhile_imp hr
    have hm := List.takeWhile_subset _ hr
    rw [List.mem_range'] at hm
    obtain ⟨k, hk, hpk⟩ := hm
    exact ⟨by simpa using hp, Or.inr (by omega)⟩

theorem all_dest_cons_false {i : Nat} {a : Amphipod} (l : List Amphipod)
    (h : a.get_destination_cup_index ≠ i) :
    (a :: l).all (fun x => x.get_destination_cup_index == i) = false := by
  simp [h]

/-! ## Potential decrease along moves -/

theorem sumIdx_set {f : Nat → α → Nat} {l : List α} {i : Nat} {y : α} (x : α)
    (h : l.get? i = some y) :
    sumIdxFrom f 0 (l.set i x) + f i y = sumIdxFrom f 0 l + f i x := by
  have := sumIdxFrom_set f x y l 0 i h
  simpa using this

theorem sumIdx_set_f (f : Nat → α → Nat) {l : List α} {i : Nat} {y : α} (x : α)
    (h : l.get? i = some y) :
    sumIdxFrom f 0 (l.set i x) + f i y = sumIdxFrom f 0 l + f i x :=
  sumIdx_set x h

theorem takeWhile_length_le (p : α → Bool) (l : List α) :
    (l.takeWhile p).length ≤ l.length :=
  (List.takeWhile_sublist p).length_le

theorem cupPotential_le (i cap : Nat) (l : List Amphipod) :
    cupPotential i ⟨cap, l⟩ ≤ 2 * l.length := by
  show (if l.all (fun a => a.get_destination_cup_index == i) then 0 else 2 * l.length)
    ≤ 2 * l.length
  split <;> omega

theorem cupPotential_clean {d cap : Nat} {cont : List Amphipod}
    (h : cont.all (fun x => x.get_destination_cup_index == d) = true) :
    cupPotential d ⟨cap, cont⟩ = 0 := by
  simp [cupPotential, h]

theorem potential_to_placeholder {room : Room} {i p : Nat} {r : Room} {c : Nat}
    (hm : room.move_amphipod_to_placeholder i p = some (r, c))
    (hslot : room.placeholders.getD p none = none)
    (hnc : (room.cups.getD i default).content.all
        (fun x => x.get_destination_cup_index == i) = false) :
    r.potential < room.potential := by
  obtain ⟨cap, a, rest, php, cupp, hc, hp, hq, hr, hcost⟩ := move_to_placeholder_elim hm
  subst hr
  have hgd : room.cups.getD i default = ⟨cap, a :: rest⟩ := by
    rw [List.getD_eq_get?, hc]; rfl
  rw [hgd] at hnc
  have hcup := sumIdx_set_f cupPotential (⟨cap, rest⟩ : Cup) hc
  have hold : cupPotential i ⟨cap, a :: rest⟩ = 2 * (rest.length + 1) := by
    simp [cupPotential, hnc]
  have hnew : cupPotential i ⟨cap, rest⟩ ≤ 2 * rest.length := cupPotential_le i cap rest
  show sumIdxFrom cupPotential 0 (room.cups.set i ⟨cap, rest⟩)
      + sumIdxFrom placeholderPotential 0 (room.placeholders.set p (some a))
    < sumIdxFrom cupPotential 0 room.cups + sumIdxFrom placeholderPotential 0 room.placeholders
  by_cases hlen : p < room.placeholders.length
  · have hget : room.placeholders.get? p = some none := getD_ph_none_lt hslot hlen
    have hph := sumIdx_set_f placeholderPotential (some a) hget
    have e1 : placeholderPotential p none = 0 := rfl
    have e2 : placeholderPotential p (some a) = 1 := rfl
    rw [e1, e2] at hph
    omega
  · have hsame : room.placeholders.set p (some a) = room.placeholders :=
      List.set_eq_of_length_le (by omega)
    rw [hsame]
    omega

theorem potential_direct {room : Room} {i : Nat} {a : Amphipod} {r : Room} {c : Nat}
    (hhead : (room.cups.getD i default).content.head? = some a)
    (hne : i ≠ a.get_destination_cup_index)
    (hchk : room.check_destination a.get_destination_cup_index = true)
    (hm : room.move_amphipod_from_origin_to_destination i a.get_destination_cup_index
      = some (r, c)) :
    r.potential < room.potential := by
  obtain ⟨capo, a0, rest, capd, cont, opos, dpos, ocup, dcup, hc, hd, hop, hdp, ho, hd2,
    hr, hcost⟩ := move_origin_destination_elim hm
  obtain ⟨cap1, rest1, hc1⟩ := head_getD_elim hhead
  have hsame := hc1.symm.trans hc
  simp only [Option.some_inj, Cup.mk.injEq, List.cons.injEq] at hsame
  obtain ⟨rfl, rfl, rfl⟩ := hsame
  subst hr
  obtain ⟨capc, contc, hqc, hclen, hall⟩ := check_destination_elim hchk
  have hdorig : room.cups.get? a.get_destination_cup_index = some ⟨capd, cont⟩ := by
    rw [← List.get?_set_ne (⟨cap1, rest1⟩ : Cup) room.cups hne]
    exact hd
  have hsame2 := hqc.symm.trans hdorig
  simp only [Option.some_inj, Cup.mk.injEq] at hsame2
  obtain ⟨rfl, rfl⟩ := hsame2
  have h1 := sumIdx_set_f cupPotential (⟨cap1, rest1⟩ : Cup) hc
  have h2 := sumIdx_set_f cupPotential (⟨capc, a :: contc⟩ : Cup) hd
  have hv1 : cupPotential i ⟨cap1, a :: rest1⟩ = 2 * (rest1.length + 1) := by
    simp [cupPotential, all_dest_cons_false rest1 (Ne.symm hne)]
  have hv2 : cupPotential i ⟨cap1, rest1⟩ ≤ 2 * rest1.length := cupPotential_le i cap1 rest1
  have hv3 : cupPotential a.get_destination_cup_index ⟨capc, contc⟩ = 0 :=
    cupPotential_clean hall
  have hv4 : cupPotential a.get_destination_cup_index ⟨capc, a :: contc⟩ = 0 := by
    apply cupPotential_clean
    simp [List.all_cons, hall]
  show sumIdxFrom cupPotential 0
      ((room.cups.set i ⟨cap1, rest1⟩).set a.get_destination_cup_index ⟨capc, a :: contc⟩)
      + sumIdxFrom placeholderPotential 0 room.placeholders
    < sumIdxFrom cupPotential 0 room.cups + sumIdxFrom placeholderPotential 0 room.placeholders
  omega

theorem potential_from_placeholder {room : Room} {p : Nat} {a : Amphipod} {r : Room} {c : Nat}
    (hg : room.placeholders.getD p none = some a)
    (hchk : room.check_destination a.get_destination_cup_index = true)
    (hm : room.move_amphipod_from_placeholder_to_destination p a.get_destination_cup_index
      = some (r, c)) :
    r.potential < room.potential := by
  obtain ⟨cap, cont, a2, php, cupp, hc, hg2, hp, hq, hr, hcost⟩ := move_from_placeholder_elim hm
  have ha : a2 = a := by
    have := hg.symm.trans hg2
    exact (Option.some_inj.mp this).symm
  subst ha
  subst hr
  obtain ⟨capc, contc, hqc, hclen, hall⟩ := check_destination_elim hchk
  have hsame2 := hqc.symm.trans hc
  simp only [Option.some_inj, Cup.mk.injEq] at hsame2
  obtain ⟨rfl, rfl⟩ := hsame2
  have hph := sumIdx_set_f placeholderPotential (none : Option Amphipod) (getD_ph_some hg)
  have e1 : placeholderPotential p none = 0 := rfl
  have e2 : placeholderPotential p (some a2) = 1 := rfl
  rw [e1, e2] at hph
  have h2 := sumIdx_set_f cupPotential (⟨capc, a2 :: contc⟩ : Cup) hc
  have hv3 : cupPotential a2.get_destination_cup_index ⟨capc, contc⟩ = 0 :=
    cupPotential_clean hall
  have hv4 : cupPotential a2.get_destination_cup_index ⟨capc, a2 :: contc⟩ = 0 := by
    apply cupPotential_clean
    simp [List.all_cons, hall]
  show sumIdxFrom cupPotential 0
      (room.cups.set a2.get_destination_cup_index ⟨capc, a2 :: contc⟩)
      + sumIdxFrom placeholderPotential 0 (room.placeholders.set p none)
    < sumIdxFrom cupPotential 0 room.cups + sumIdxFrom placeholderPotential 0 room.placeholders
  omega

/-! ## Length preservation -/

theorem move_to_placeholder_lengths {room : Room} {i p : Nat} {r : Room} {c : Nat}
    (hm : room.move_amphipod_to_placeholder i p = some (r, c)) :
    r.placeholders.length = room.placeholders.length ∧ r.cups.length = room.cups.length := by
  obtain ⟨cap, a, rest, php, cupp, hc, hp, hq, hr, hcost⟩ := move_to_placeholder_elim hm
  subst hr
  simp [List.length_set]

theorem move_from_placeholder_lengths {room : Room} {p d : Nat} {r : Room} {c : Nat}
    (hm : room.move_amphipod_from_placeholder_to_destination p d = some (r, c)) :
    r.placeholders.length = room.placeholders.length ∧ r.cups.length = room.cups.length := by
  obtain ⟨cap, cont, a, php, cupp, hc, hg, hp, hq, hr, hcost⟩ := move_from_placeholder_elim hm
  subst hr
  simp [List.length_set]

theorem move_origin_destination_lengths {room : Room} {i d : Nat} {r : Room} {c : Nat}
    (hm : room.move_amphipod_from_origin_to_destination i d = some (r, c)) :
    r.placeholders.length = room.placeholders.length ∧ r.cups.length = room.cups.length := by
  obtain ⟨capo, a, rest, capd, cont, opos, dpos, ocup, dcup, hc, hd, hop, hdp, ho, hd2,
    hr, hcost⟩ := move_origin_destination_elim hm
  subst hr
  simp [List.length_set]

/-! ## The settle loop: step characterizations and fold invariants -/

theorem foldl_invariant {β ι : Type _} (P : β → Prop) (step : β → ι → β) :
    ∀ (l : List ι) (acc : β), P acc → (∀ b x, P b → P (step b x)) → P (l.foldl step acc) := by
  intro l
  induction l with
  | nil => intro acc h _; exact h
  | cons a t ih => intro acc h hstep; exact ih (step acc a) (hstep acc a h) hstep

theorem progress_cup_step_cases (acc : WalkState × Bool) (i : Nat) :
    WalkState.progress_cup_step acc i = acc ∨
    ∃ a r c,
      (acc.1.room.cups.getD i default).content.head? = some a ∧
      i ≠ a.get_destination_cup_index ∧
      acc.1.room.check_destination a.get_destination_cup_index = true ∧
      acc.1.room.check_path_origin_destination i a.get_destination_cup_index = true ∧
      acc.1.room.move_amphipod_from_origin_to_destination i a.get_destination_cup_index
        = some (r, c) ∧
      WalkState.progress_cup_step acc i = (⟨r, acc.1.cost + c⟩, true) := by
  unfold WalkState.progress_cup_step
  cases hh : (acc.1.room.cups.getD i default).content.head? with
  | none => left; rfl
  | some a =>
    by_cases hcond : (i != a.get_destination_cup_index
        && acc.1.room.check_destination a.get_destination_cup_index
        && acc.1.room.check_path_origin_destination i a.get_destination_cup_index) = true
    · simp only [hcond, if_true]
      cases hm : acc.1.room.move_amphipod_from_origin_to_destination i
          a.get_destination_cup_index with
      | none => left; rfl
      | some rc =>
        right
        simp only [Bool.and_eq_true, bne_iff_ne] at hcond
        exact ⟨a, rc.1, rc.2, rfl, hcond.1.1, hcond.1.2, hcond.2, hm, rfl⟩
    · left
      simp only [Bool.not_eq_true] at hcond
      simp [hcond]

theorem progress_placeholder_step_cases (acc : WalkState × Bool) (p : Nat) :
    WalkState.progress_placeholder_step acc p = acc ∨
    ∃ a r c,
      acc.1.room.placeholders.getD p none = some a ∧
      acc.1.room.check_destination a.get_destination_cup_index = true ∧
      acc.1.room.check_path_placeholder_destination p a.get_destination_cup_index = true ∧
      acc.1.room.move_amphipod_from_placeholder_to_destination p a.get_destination_cup_index
        = some (r, c) ∧
      WalkState.progress_placeholder_step acc p = (⟨r, acc.1.cost + c⟩, true) := by
  unfold WalkState.progress_placeholder_step
  cases hh : acc.1.room.placeholders.getD p none with
  | none => left; rfl
  | some a =>
    by_cases hcond : (acc.1.room.check_destination a.get_destination_cup_index
        && acc.1.room.check_path_placeholder_destination p a.get_destination_cup_index) = true
    · simp only [hcond, if_true]
      cases hm : acc.1.room.move_amphipod_from_placeholder_to_destination p
          a.get_destination_cup_index with
      | none => left; rfl
      | some rc =>
        right
        simp only [Bool.and_eq_true] at hcond
        exact ⟨a, rc.1, rc.2, rfl, hcond.1, hcond.2, hm, rfl⟩
    · left
      simp only [Bool.not_eq_true] at hcond
      simp [hcond]

/-- Invariant carried through both scan loops of `try_progress`. -/
def ProgressInv (s : WalkState) (acc : WalkState × Bool) : Prop :=
  (acc.2 = false → acc.1 = s) ∧
  acc.1.room.potential ≤ s.room.potential ∧
  (acc.2 = true → acc.1.room.potential < s.room.potential) ∧
  acc.1.room.placeholders.length = s.room.placeholders.length ∧
  acc.1.room.cups.length = s.room.cups.length

theorem progress_cup_step_inv (s : WalkState) (acc : WalkState × Bool) (i : Nat)
    (h : ProgressInv s acc) : ProgressInv s (WalkState.progress_cup_step acc i) := by
  rcases progress_cup_step_cases acc i with heq | ⟨a, r, c, hh, hne, hchk, hpath, hm, heq⟩
  · rw [heq]; exact h
  · rw [heq]
    have hpot := potential_direct hh hne hchk hm
    obtain ⟨hl1, hl2⟩ := move_origin_destination_lengths hm
    obtain ⟨h1, h2, h3, h4, h5⟩ := h
    refine ⟨fun hf => absurd hf (by simp), ?_, fun _ => ?_, ?_, ?_⟩
    · show r.potential ≤ s.room.potential
      omega
    · show r.potential < s.room.potential
      omega
    · show r.placeholders.length = s.room.placeholders.length
      omega
    · show r.cups.length = s.room.cups.length
      omega

theorem progress_placeholder_step_inv (s : WalkState) (acc : WalkState × Bool) (p : Nat)
    (h : ProgressInv s acc) : ProgressInv s (WalkState.progress_placeholder_step acc p) := by
  rcases progress_placeholder_step_cases acc p with heq | ⟨a, r, c, hh, hchk, hpath, hm, heq⟩
  · rw [heq]; exact h
  · rw [heq]
    have hpot := potential_from_placeholder hh hchk hm
    obtain ⟨hl1, hl2⟩ := move_from_placeholder_lengths hm
    obtain ⟨h1, h2, h3, h4, h5⟩ := h
    refine ⟨fun hf => absurd hf (by simp), ?_, fun _ => ?_, ?_, ?_⟩
    · show r.potential ≤ s.room.potential
      omega
    · show r.potential < s.room.potential
      omega
    · show r.placeholders.length = s.room.placeholders.length
      omega
    · show r.cups.length = s.room.cups.length
      omega

theorem try_progress_inv (s : WalkState) : ProgressInv s s.try_progress := by
  unfold WalkState.try_progress
  apply foldl_invariant (ProgressInv s) WalkState.progress_placeholder_step
  · apply foldl_invariant (ProgressInv s) WalkState.progress_cup_step
    · exact ⟨fun _ => rfl, le_refl _, fun hf => absurd hf (by simp), rfl, rfl⟩
    · exact fun b x hb => progress_cup_step_inv s b x hb
  · exact fun b x hb => progress_placeholder_step_inv s b x hb

theorem try_progress_false_eq {s s' : WalkState} (h : s.try_progress = (s', false)) :
    s' = s := by
  have := (try_progress_inv s).1
  rw [h] at this
  exact this rfl

theorem try_progress_true_potential {s s' : WalkState} (h : s.try_progress = (s', true)) :
    s'.room.potential < s.room.potential := by
  have := (try_progress_inv s).2.2.1
  rw [h] at this
  exact this rfl

theorem try_progress_potential_le (s : WalkState) :
    s.try_progress.1.room.potential ≤ s.room.potential :=
  (try_progress_inv s).2.1

theorem try_progress_lengths (s : WalkState) :
    s.try_progress.1.room.placeholders.length = s.room.placeholders.length ∧
    s.try_progress.1.room.cups.length = s.room.cups.length :=
  ⟨(try_progress_inv s).2.2.2.1, (try_progress_inv s).2.2.2.2⟩

/-! ## The settle loop reaches its fixpoint -/

theorem progressFuel_fix : ∀ (fuel : Nat) (s : WalkState), s.room.potential < fuel →
    (s.progressFuel fuel).try_progress = (s.progressFuel fuel, false) := by
  intro fuel
  induction fuel with
  | zero => intro s h; omega
  | succ n ih =>
    intro s h
    rw [WalkState.progressFuel]
    cases hp : s.try_progress with
    | mk s' b =>
      cases b with
      | false =>
        have hs := try_progress_false_eq hp
        subst hs
        simp only [hp, if_false]
        exact hp
      | true =>
        have hpot := try_progress_true_potential hp
        simp only [hp, if_true]
        exact ih s' (by omega)

theorem progressFuel_of_fix {s : WalkState} (h : s.try_progress = (s, false)) :
    ∀ fuel, s.progressFuel fuel = s := by
  intro fuel
  cases fuel with
  | zero => rfl
  | succ n =>
    rw [WalkState.progressFuel]
    simp [h]

theorem progress_fixpoint (s : WalkState) :
    (s.progress).try_progress = (s.progress, false) :=
  progressFuel_fix (s.room.potential + 1) s (Nat.lt_succ_self _)

theorem progress_progress_eq (s : WalkState) : (s.progress).progress = s.progress :=
  progressFuel_of_fix (progress_fixpoint s) _

theorem progressFuel_potential_le : ∀ (fuel : Nat) (s : WalkState),
    (s.progressFuel fuel).room.potential ≤ s.room.potential := by
  intro fuel
  induction fuel with
  | zero => intro s; exact le_refl _
  | succ n ih =>
    intro s
    rw [WalkState.progressFuel]
    by_cases hb : s.try_progress.2 = true
    · rw [if_pos hb]
      exact le_trans (ih _) (try_progress_potential_le s)
    · rw [if_neg hb]

theorem progressFuel_lengths : ∀ (fuel : Nat) (s : WalkState),
    (s.progressFuel fuel).room.placeholders.length = s.room.placeholders.length ∧
    (s.progressFuel fuel).room.cups.length = s.room.cups.length := by
  intro fuel
  induction fuel with
  | zero => intro s; exact ⟨rfl, rfl⟩
  | succ n ih =>
    intro s
    rw [WalkState.progressFuel]
    by_cases hb : s.try_progress.2 = true
    · rw [if_pos hb]
      obtain ⟨h1, h2⟩ := ih s.try_progress.1
      obtain ⟨h3, h4⟩ := try_progress_lengths s
      exact ⟨h1.trans h3, h2.trans h4⟩
    · rw [if_neg hb]
      exact ⟨rfl, rfl⟩

theorem progress_potential_le (s : WalkState) :
    (s.progress).room.potential ≤ s.room.potential :=
  progressFuel_potential_le _ s

theorem progress_lengths (s : WalkState) :
    (s.progress).room.placeholders.length = s.room.placeholders.length ∧
    (s.progress).room.cups.length = s.room.cups.length :=
  progressFuel_lengths _ s

/-! ## Successor generation: extraction lemmas -/

theorem mem_expand_cup {s : WalkState} {i : Nat} {cup : Cup} {x : WalkState}
    (h : x ∈ s.expand_cup i cup) :
    cup.content.all (fun a => a.get_destination_cup_index == i) = false ∧
    ∃ p ∈ s.room.get_available_placeholders i, ∃ r c,
      s.room.move_amphipod_to_placeholder i p = some (r, c) ∧ x = ⟨r, s.cost + c⟩ := by
  by_cases hc : cup.content.all (fun a => a.get_destination_cup_index == i) = true
  · rw [WalkState.expand_cup, if_pos hc] at h
    simp at h
  · rw [WalkState.expand_cup, if_neg hc] at h
    rw [List.mem_filterMap] at h
    obtain ⟨p, hp, hx⟩ := h
    cases hm : s.room.move_amphipod_to_placeholder i p with
    | none => rw [hm] at hx; simp at hx
    | some rc =>
      rw [hm] at hx
      simp only [Option.some_inj] at hx
      exact ⟨by simpa using hc, p, hp, rc.1, rc.2, by rw [hm], hx.symm⟩

theorem mem_get_next_states {s x : WalkState} (h : x ∈ s.get_next_states) :
    ∃ i cup, s.room.cups.get? i = some cup ∧ x ∈ s.expand_cup i cup := by
  unfold WalkState.get_next_states at h
  have hsuff : ∀ (l : List (Nat × Cup)) (acc : List WalkState),
      x ∈ l.foldl (fun res ic => res ++ s.expand_cup ic.1 ic.2) acc →
      x ∈ acc ∨ ∃ ic ∈ l, x ∈ s.expand_cup ic.1 ic.2 := by
    intro l
    induction l with
    | nil => intro acc h'; exact Or.inl h'
    | cons e t ih =>
      intro acc h'
      rcases ih _ h' with h'' | ⟨ic, hic, hx⟩
      · rcases List.mem_append.mp h'' with h3 | h3
        · exact Or.inl h3
        · exact Or.inr ⟨e, List.mem_cons_self _ _, h3⟩
      · exact Or.inr ⟨ic, List.mem_cons_of_mem _ hic, hx⟩
  rcases hsuff _ _ h with h' | ⟨ic, hic, hx⟩
  · simp at h'
  · exact ⟨ic.1, ic.2, List.mem_enum_iff_get?.mp hic, hx⟩

theorem child_potential {s x : WalkState} (h : x ∈ s.get_next_states) :
    x.room.potential < s.room.potential := by
  obtain ⟨i, cup, hget, hx⟩ := mem_get_next_states h
  obtain ⟨hnc, p, hp, r, c, hm, hxe⟩ := mem_expand_cup hx
  subst hxe
  have hav := available_placeholders_spec hp
  have hgd : s.room.cups.getD i default = cup := by rw [List.getD_eq_get?, hget]; rfl
  exact potential_to_placeholder hm hav.1 (by rw [hgd]; exact hnc)

theorem child_lengths {s x : WalkState} (h : x ∈ s.get_next_states) :
    x.room.placeholders.length = s.room.placeholders.length ∧
    x.room.cups.length = s.room.cups.length := by
  obtain ⟨i, cup, hget, hx⟩ := mem_get_next_states h
  obtain ⟨hnc, p, hp, r, c, hm, hxe⟩ := mem_expand_cup hx
  subst hxe
  exact move_to_placeholder_lengths hm

theorem expand_cup_length (s : WalkState) (i : Nat) (cup : Cup) :
    (s.expand_cup i cup).length ≤ i + 2 + s.room.placeholders.length := by
  unfold WalkState.expand_cup
  split
  · simp
  · refine le_trans (List.length_filterMap_le _ _) ?_
    unfold Room.get_available_placeholders
    rw [List.length_append]
    have h1 := takeWhile_length_le
      (fun index => (s.room.placeholders.getD index none).isNone)
      ((List.range (i + 2)).reverse)
    have h2 := takeWhile_length_le
      (fun index => (s.room.placeholders.getD index none).isNone)
      (List.range' (i + 2) (s.room.placeholders.length - (i + 2)))
    rw [List.length_reverse, List.length_range] at h1
    rw [List.length_range'] at h2
    omega

theorem get_next_states_length (s : WalkState) :
    s.get_next_states.length
      ≤ s.room.cups.length * (s.room.cups.length + 1 + s.room.placeholders.length) := by
  unfold WalkState.get_next_states
  have hsuff : ∀ (l : List (Nat × Cup)) (acc : List WalkState),
      (∀ ic ∈ l, ic.1 < s.room.cups.length) →
      (l.foldl (fun res ic => res ++ s.expand_cup ic.1 ic.2) acc).length
        ≤ acc.length + l.length * (s.room.cups.length + 1 + s.room.placeholders.length) := by
    intro l
    induction l with
    | nil => intro acc _; simp
    | cons e t ih =>
      intro acc hlt
      have hbound := expand_cup_length s e.1 e.2
      have he : e.1 < s.room.cups.length := hlt e (List.mem_cons_self _ _)
      have := ih (acc ++ s.expand_cup e.1 e.2) (fun ic hic => hlt ic (List.mem_cons_of_mem _ hic))
      rw [List.length_append] at this
      simp only [List.foldl_cons, List.length_cons]
      rw [Nat.succ_mul]
      omega
  have := hsuff s.room.cups.enum [] (fun ic hic => by
    have := List.mem_enum_iff_get?.mp hic
    rw [List.get?_eq_getElem?, List.getElem?_eq_some_iff] at this
    exact this.1)
  simpa [List.enum_length] using this

/-! ## The work-list measure strictly decreases -/

theorem searchBound_ge_two (s : WalkState) : 2 ≤ searchBound s := by
  unfold searchBound
  omega

theorem searchBound_eq_of_lengths {s t : WalkState}
    (h1 : s.room.placeholders.length = t.room.placeholders.length)
    (h2 : s.room.cups.length = t.room.cups.length) : searchBound s = searchBound t := by
  unfold searchBound
  rw [h1, h2]

theorem stackMeasure_append : ∀ (l1 l2 : List WalkState),
    stackMeasure (l1 ++ l2) = stackMeasure l1 + stackMeasure l2 := by
  intro l1 l2
  induction l1 with
  | nil => simp [stackMeasure]
  | cons a t ih =>
    show searchBound a ^ (1 + a.room.potential) + stackMeasure (t ++ l2)
      = searchBound a ^ (1 + a.room.potential) + stackMeasure t + stackMeasure l2
    rw [ih]
    omega

theorem stackMeasure_reverse : ∀ (l : List WalkState),
    stackMeasure l.reverse = stackMeasure l := by
  intro l
  induction l with
  | nil => rfl
  | cons a t ih =>
    simp only [List.reverse_cons, stackMeasure_append, stackMeasure, ih]
    omega

theorem stackMeasure_le (T : Nat) : ∀ (l : List WalkState),
    (∀ x ∈ l, searchBound x ^ (1 + x.room.potential) ≤ T) →
    stackMeasure l ≤ l.length * T := by
  intro l
  induction l with
  | nil => intro _; simp [stackMeasure]
  | cons a t ih =>
    intro h
    have ha := h a (List.mem_cons_self _ _)
    have ht := ih (fun x hx => h x (List.mem_cons_of_mem _ hx))
    simp only [stackMeasure, List.length_cons]
    rw [Nat.succ_mul]
    omega

theorem stackMeasure_pos {x : WalkState} (l : List WalkState) :
    0 < stackMeasure (x :: l) := by
  have : 0 < searchBound x ^ (1 + x.room.potential) :=
    Nat.pos_pow_of_pos _ (by have := searchBound_ge_two x; omega)
  simp only [stackMeasure]
  omega

theorem simulateStep_measure {stack : List WalkState} {ms : Nat}
    {stack' : List WalkState} {ms' : Nat}
    (h : simulateStep stack ms = some (stack', ms')) :
    stackMeasure stack' < stackMeasure stack := by
  cases stack with
  | nil => simp [simulateStep] at h
  | cons current rest =>
    have hterm : 0 < searchBound current ^ (1 + current.room.potential) :=
      Nat.pos_pow_of_pos _ (by have := searchBound_ge_two current; omega)
    rw [simulateStep] at h
    by_cases h1 : ms < current.cost
    · rw [if_pos h1] at h
      simp only [Option.some_inj, Prod.mk.injEq] at h
      obtain ⟨he, _⟩ := h
      subst he
      simp only [stackMeasure]
      omega
    · rw [if_neg h1] at h
      by_cases h2 : ms < current.project_costs
      · rw [if_pos h2] at h
        simp only [Option.some_inj, Prod.mk.injEq] at h
        obtain ⟨he, _⟩ := h
        subst he
        simp only [stackMeasure]
        omega
      · rw [if_neg h2] at h
        by_cases h3 : (current.progress).room.is_ordered = true
        · rw [if_pos h3] at h
          simp only [Option.some_inj, Prod.mk.injEq] at h
          obtain ⟨he, _⟩ := h
          subst he
          simp only [stackMeasure]
          omega
        · rw [if_neg h3] at h
          simp only [Option.some_inj, Prod.mk.injEq] at h
          obtain ⟨he, _⟩ := h
          subst he
          rw [stackMeasure_append, stackMeasure_reverse]
          have hchild : ∀ x ∈ (current.progress).get_next_states,
              searchBound x ^ (1 + x.room.potential)
                ≤ searchBound current ^ current.room.potential := by
            intro x hx
            have hxl := child_lengths hx
            have hpl := progress_lengths current
            have hB : searchBound x = searchBound current :=
              searchBound_eq_of_lengths (by omega) (by omega)
            rw [hB]
            apply Nat.pow_le_pow_right (by have := searchBound_ge_two current; omega)
            have hxp := child_potential hx
            have hpp := progress_potential_le current
            omega
          have hm1 := stackMeasure_le _ _ hchild
          have hm2 := get_next_states_length (current.progress)
          have hm3 : (current.progress).room.cups.length
                * ((current.progress).room.cups.length + 1
                  + (current.progress).room.placeholders.length)
              = searchBound current - 2 := by
            have hpl := progress_lengths current
            unfold searchBound
            rw [hpl.1, hpl.2]
            omega
          rw [hm3] at hm2
          have hm4 : (current.progress).get_next_states.length
                * (searchBound current ^ current.room.potential)
              ≤ (searchBound current - 2)
                * (searchBound current ^ current.room.potential) :=
            Nat.mul_le_mul_right _ hm2
          have hm5 : (searchBound current - 2)
                * (searchBound current ^ current.room.potential)
              < searchBound current * (searchBound current ^ current.room.potential) := by
            apply mul_lt_mul_of_pos_right
            · have := searchBound_ge_two current
              omega
            · exact Nat.pos_pow_of_pos _ (by have := searchBound_ge_two current; omega)
          have hm6 : searchBound current * searchBound current ^ current.room.potential
              = searchBound current ^ (1 + current.room.potential) := by
            rw [Nat.add_comm, pow_succ, Nat.mul_comm]
          simp only [stackMeasure]
          omega

/-! ## Fuel-stability of the search loop -/

theorem stackMeasure_zero_nil {stack : List WalkState} (h : stackMeasure stack = 0) :
    stack = [] := by
  cases stack with
  | nil => rfl
  | cons a t =>
    have := @stackMeasure_pos a t
    omega

theorem simulateLoopFuel_succ_stable : ∀ (fuel : Nat) (stack : List WalkState) (ms : Nat),
    stackMeasure stack ≤ fuel →
    simulateLoopFuel (fuel + 1) stack ms = simulateLoopFuel fuel stack ms := by
  intro fuel
  induction fuel with
  | zero =>
    intro stack ms h
    have hnil := @stackMeasure_zero_nil stack (by omega)
    subst hnil
    rfl
  | succ n ih =>
    intro stack ms h
    show (match simulateStep stack ms with
        | none => ms
        | some sm => simulateLoopFuel (n + 1) sm.1 sm.2)
      = (match simulateStep stack ms with
        | none => ms
        | some sm => simulateLoopFuel n sm.1 sm.2)
    cases hstep : simulateStep stack ms with
    | none => rfl
    | some sm =>
      obtain ⟨st', ms'⟩ := sm
      have hless := simulateStep_measure hstep
      exact ih st' ms' (by omega)

theorem simulateLoopFuel_add_stable (extra : Nat) :
    ∀ (fuel : Nat) (stack : List WalkState) (ms : Nat),
      stackMeasure stack ≤ fuel →
      simulateLoopFuel (fuel + extra) stack ms = simulateLoopFuel fuel stack ms := by
  induction extra with
  | zero => intro fuel stack ms _; rfl
  | succ k ih =>
    intro fuel stack ms h
    have he : fuel + (k + 1) = (fuel + k) + 1 := rfl
    rw [he, simulateLoopFuel_succ_stable (fuel + k) stack ms (by omega), ih fuel stack ms h]

/-! ## Search moves are legal moves -/

theorem try_progress_reach (s : WalkState) : ReachRoom s.room s.try_progress.1.room := by
  unfold WalkState.try_progress
  apply foldl_invariant (fun acc : WalkState × Bool => ReachRoom s.room acc.1.room)
    WalkState.progress_placeholder_step
  · apply foldl_invariant (fun acc : WalkState × Bool => ReachRoom s.room acc.1.room)
      WalkState.progress_cup_step
    · exact Relation.ReflTransGen.refl
    · intro b x hb
      rcases progress_cup_step_cases b x with heq | ⟨a, r, c, hh, hne, hchk, hpath, hm, heq⟩
      · rw [heq]; exact hb
      · rw [heq]
        exact Relation.ReflTransGen.tail hb
          ⟨c, LegalStep.direct b.1.room x a r c hh hne hchk hpath hm⟩
  · intro b x hb
    rcases progress_placeholder_step_cases b x with heq | ⟨a, r, c, hh, hchk, hpath, hm, heq⟩
    · rw [heq]; exact hb
    · rw [heq]
      exact Relation.ReflTransGen.tail hb
        ⟨c, LegalStep.fromPlaceholder b.1.room x a r c hh hchk hpath hm⟩

theorem progressFuel_reach : ∀ (fuel : Nat) (s : WalkState),
    ReachRoom s.room (s.progressFuel fuel).room := by
  intro fuel
  induction fuel with
  | zero => intro s; exact Relation.ReflTransGen.refl
  | succ n ih =>
    intro s
    rw [WalkState.progressFuel]
    by_cases hb : s.try_progress.2 = true
    · rw [if_pos hb]
      exact Relation.ReflTransGen.trans (try_progress_reach s) (ih s.try_progress.1)
    · rw [if_neg hb]
      exact Relation.ReflTransGen.refl

theorem progress_reach (s : WalkState) : ReachRoom s.room s.progress.room :=
  progressFuel_reach _ s

theorem child_reach {s x : WalkState} (h : x ∈ s.get_next_states) :
    ReachRoom s.room x.room := by
  obtain ⟨i, cup, hget, hx⟩ := mem_get_next_states h
  obtain ⟨hnc, p, hp, r, c, hm, hxe⟩ := mem_expand_cup hx
  subst hxe
  exact Relation.ReflTransGen.single ⟨c, LegalStep.toPlaceholder s.room i p r c hp hm⟩

theorem reach_ordered_sorts {r r' : Room} (h : ReachRoom r r') (ho : r'.is_ordered = true) :
    ∃ c, SortsIn r c := by
  induction h using Relation.ReflTransGen.head_induction_on with
  | refl => exact ⟨0, SortsIn.done _ ho⟩
  | head hstep _ ih =>
    obtain ⟨c, hc⟩ := hstep
    obtain ⟨ctot, hsorts⟩ := ih
    exact ⟨c + ctot, SortsIn.step _ _ _ _ hc hsorts⟩

/-! ## The unsolvable case returns the sentinel -/

theorem simulateStep_unsolvable {room0 : Room} (hns : ¬ ∃ c, SortsIn room0 c)
    {current : WalkState} {rest stack' : List WalkState} {ms' : Nat}
    (hreach : ReachRoom room0 current.room)
    (hrest : ∀ t ∈ rest, ReachRoom room0 t.room)
    (h : simulateStep (current :: rest) U32_MAX = some (stack', ms')) :
    ms' = U32_MAX ∧ ∀ t ∈ stack', ReachRoom room0 t.room := by
  rw [simulateStep] at h
  by_cases h1 : U32_MAX < current.cost
  · rw [if_pos h1] at h
    simp only [Option.some_inj, Prod.mk.injEq] at h
    obtain ⟨he1, he2⟩ := h
    subst he1
    exact ⟨he2.symm, hrest⟩
  · rw [if_neg h1] at h
    by_cases h2 : U32_MAX < current.project_costs
    · rw [if_pos h2] at h
      simp only [Option.some_inj, Prod.mk.injEq] at h
      obtain ⟨he1, he2⟩ := h
      subst he1
      exact ⟨he2.symm, hrest⟩
    · rw [if_neg h2] at h
      by_cases h3 : (current.progress).room.is_ordered = true
      · exfalso
        exact hns (reach_ordered_sorts
          (Relation.ReflTransGen.trans hreach (progress_reach current)) h3)
      · rw [if_neg h3] at h
        simp only [Option.some_inj, Prod.mk.injEq] at h
        obtain ⟨he1, he2⟩ := h
        subst he1
        refine ⟨he2.symm, ?_⟩
        intro t ht
        rcases List.mem_append.mp ht with hta | htb
        · rw [List.mem_reverse] at hta
          exact Relation.ReflTransGen.trans
            (Relation.ReflTransGen.trans hreach (progress_reach current)) (child_reach hta)
        · exact hrest t htb

theorem simulateLoop_unsolvable {room0 : Room} (hns : ¬ ∃ c, SortsIn room0 c) :
    ∀ (fuel : Nat) (stack : List WalkState),
      (∀ t ∈ stack, ReachRoom room0 t.room) →
      simulateLoopFuel fuel stack U32_MAX = U32_MAX := by
  intro fuel
  induction fuel with
  | zero => intro stack _; rfl
  | succ n ih =>
    intro stack hreach
    show (match simulateStep stack U32_MAX with
        | none => U32_MAX
        | some sm => simulateLoopFuel n sm.1 sm.2) = U32_MAX
    cases hstep : simulateStep stack U32_MAX with
    | none => rfl
    | some sm =>
      obtain ⟨st', ms'⟩ := sm
      cases stack with
      | nil => simp [simulateStep] at hstep
      | cons current rest =>
        obtain ⟨hm1, hm2⟩ := simulateStep_unsolvable hns
          (hreach current (List.mem_cons_self _ _))
          (fun t ht => hreach t (List.mem_cons_of_mem _ ht)) hstep
        subst hm1
        exact ih st' hm2

theorem simulate_ordering_unsolvable {room0 : Room} (hns : ¬ ∃ c, SortsIn room0 c) :
    simulate_ordering room0 = U32_MAX := by
  unfold simulate_ordering
  apply simulateLoop_unsolvable hns
  intro t ht
  rw [List.mem_singleton] at ht
  subst ht
  exact Relation.ReflTransGen.refl

/-! ## Token conservation -/

theorem count_cons_kind (k a : Amphipod) (l : List Amphipod) :
    (a :: l).count k = l.count k + (if a = k then 1 else 0) := by
  rw [List.count_cons]
  by_cases hak : a = k
  · simp [hak]
  · simp [hak]

theorem countKind_to_placeholder {room : Room} {i p : Nat} {r : Room} {c : Nat}
    (hm : room.move_amphipod_to_placeholder i p = some (r, c))
    (hslot : room.placeholders.getD p none = none)
    (hlt : p < room.placeholders.length) (k : Amphipod) :
    r.countKind k = room.countKind k := by
  obtain ⟨cap, a, rest, php, cupp, hc, hp, hq, hr, hcost⟩ := move_to_placeholder_elim hm
  subst hr
  have hget : room.placeholders.get? p = some none := getD_ph_none_lt hslot hlt
  have hph := sumIdx_set_f (phKind k) (some a) hget
  have hcup := sumIdx_set_f (cupKind k) (⟨cap, rest⟩ : Cup) hc
  have e1 : phKind k p none = 0 := rfl
  have e2 : phKind k p (some a) = if a = k then 1 else 0 := rfl
  have e3 : cupKind k i ⟨cap, a :: rest⟩ = cupKind k i ⟨cap, rest⟩ + (if a = k then 1 else 0) :=
    count_cons_kind k a rest
  rw [e1, e2] at hph
  rw [e3] at hcup
  show sumIdxFrom (phKind k) 0 (room.placeholders.set p (some a))
      + sumIdxFrom (cupKind k) 0 (room.cups.set i ⟨cap, rest⟩)
    = sumIdxFrom (phKind k) 0 room.placeholders + sumIdxFrom (cupKind k) 0 room.cups
  omega

theorem countKind_from_placeholder {room : Room} {p d : Nat} {r : Room} {c : Nat}
    (hm : room.move_amphipod_from_placeholder_to_destination p d = some (r, c))
    (k : Amphipod) : r.countKind k = room.countKind k := by
  obtain ⟨cap, cont, a, php, cupp, hc, hg, hp, hq, hr, hcost⟩ := move_from_placeholder_elim hm
  subst hr
  have hph := sumIdx_set_f (phKind k) (none : Option Amphipod) (getD_ph_some hg)
  have hcup := sumIdx_set_f (cupKind k) (⟨cap, a :: cont⟩ : Cup) hc
  have e1 : phKind k p none = 0 := rfl
  have e2 : phKind k p (some a) = if a = k then 1 else 0 := rfl
  have e3 : cupKind k d ⟨cap, a :: cont⟩ = cupKind k d ⟨cap, cont⟩ + (if a = k then 1 else 0) :=
    count_cons_kind k a cont
  rw [e1, e2] at hph
  rw [e3] at hcup
  show sumIdxFrom (phKind k) 0 (room.placeholders.set p none)
      + sumIdxFrom (cupKind k) 0 (room.cups.set d ⟨cap, a :: cont⟩)
    = sumIdxFrom (phKind k) 0 room.placeholders + sumIdxFrom (cupKind k) 0 room.cups
  omega

theorem countKind_direct {room : Room} {i d : Nat} {r : Room} {c : Nat}
    (hm : room.move_amphipod_from_origin_to_destination i d = some (r, c))
    (k : Amphipod) : r.countKind k = room.countKind k := by
  obtain ⟨capo, a, rest, capd, cont, opos, dpos, ocup, dcup, hc, hd, hop, hdp, ho, hd2,
    hr, hcost⟩ := move_origin_destination_elim hm
  subst hr
  have hcup1 := sumIdx_set_f (cupKind k) (⟨capo, rest⟩ : Cup) hc
  have hcup2 := sumIdx_set_f (cupKind k) (⟨capd, a :: cont⟩ : Cup) hd
  have e3 : cupKind k i ⟨capo, a :: rest⟩ = cupKind k i ⟨capo, rest⟩ + (if a = k then 1 else 0) :=
    count_cons_kind k a rest
  have e4 : cupKind k d ⟨capd, a :: cont⟩ = cupKind k d ⟨capd, cont⟩ + (if a = k then 1 else 0) :=
    count_cons_kind k a cont
  rw [e3] at hcup1
  rw [e4] at hcup2
  show sumIdxFrom (phKind k) 0 room.placeholders
      + sumIdxFrom (cupKind k) 0 ((room.cups.set i ⟨capo, rest⟩).set d ⟨capd, a :: cont⟩)
    = sumIdxFrom (phKind k) 0 room.placeholders + sumIdxFrom (cupKind k) 0 room.cups
  omega

theorem countKind_legalStep {room r : Room} {c : Nat} (h : LegalStep room r c)
    (h7 : room.placeholders.length = 7) (h4 : room.cups.length = 4) (k : Amphipod) :
    r.countKind k = room.countKind k := by
  cases h with
  | toPlaceholder i p r2 c2 hp hm =>
    have hav := available_placeholders_spec hp
    obtain ⟨cap, a, rest, php, cupp, hc, hpp, hq, hr, hcost⟩ := move_to_placeholder_elim hm
    have hi : i < room.cups.length := by
      rw [List.get?_eq_getElem?, List.getElem?_eq_some_iff] at hc
      exact hc.1
    have hplt : p < room.placeholders.length := by
      rcases hav.2 with h' | h'
      · omega
      · exact h'
    exact countKind_to_placeholder hm hav.1 hplt k
  | fromPlaceholder p a r2 c2 hg hchk hpath hm => exact countKind_from_placeholder hm k
  | direct i a r2 c2 hh hne hchk hpath hm => exact countKind_direct hm k

theorem lengths_legalStep {room r : Room} {c : Nat} (h : LegalStep room r c) :
    r.placeholders.length = room.placeholders.length ∧
    r.cups.length = room.cups.length := by
  cases h with
  | toPlaceholder i p r2 c2 hp hm => exact move_to_placeholder_lengths hm
  | fromPlaceholder p a r2 c2 hg hchk hpath hm => exact move_from_placeholder_lengths hm
  | direct i a r2 c2 hh hne hchk hpath hm => exact move_origin_destination_lengths hm

theorem getD_set_capacity {l : List Cup} {i cap : Nat} {c1 : List Amphipod}
    (hc : l.get? i = some ⟨cap, c1⟩) (c2 : List Amphipod) (j : Nat) :
    ((l.set i ⟨cap, c2⟩).getD j default).capacity = (l.getD j default).capacity := by
  by_cases hij : i = j
  · subst hij
    have hi : i < l.length := by
      rw [List.get?_eq_getElem?, List.getElem?_eq_some_iff] at hc
      exact hc.1
    rw [List.getD_eq_get?, List.getD_eq_get?, hc, List.get?_eq_getElem?,
      List.getElem?_set_self hi]
    rfl
  · rw [List.getD_eq_get?, List.getD_eq_get?, List.get?_set_ne _ _ hij]

theorem capacity_legalStep {room r : Room} {c : Nat} (h : LegalStep room r c) (j : Nat) :
    (r.cups.getD j default).capacity = (room.cups.getD j default).capacity := by
  cases h with
  | toPlaceholder i p r2 c2 hp hm =>
    obtain ⟨cap, a, rest, php, cupp, hc, hpp, hq, hr, hcost⟩ := move_to_placeholder_elim hm
    subst hr
    exact getD_set_capacity hc rest j
  | fromPlaceholder p a r2 c2 hg hchk hpath hm =>
    obtain ⟨cap, cont, a2, php, cupp, hc, hg2, hp, hq, hr, hcost⟩ := move_from_placeholder_elim hm
    subst hr
    exact getD_set_capacity hc (a2 :: cont) j
  | direct i a r2 c2 hh hne hchk hpath hm =>
    obtain ⟨capo, a0, rest, capd, cont, opos, dpos, ocup, dcup, hc, hd, hop, hdp, ho, hd2,
      hr, hcost⟩ := move_origin_destination_elim hm
    subst hr
    exact (getD_set_capacity hd (a0 :: cont) j).trans (getD_set_capacity hc rest j)

theorem sortsIn_final : ∀ {room : Room} {c : Nat}, SortsIn room c →
    room.placeholders.length = 7 → room.cups.length = 4 →
    ∃ r : Room, r.is_ordered = true ∧ (∀ k, r.countKind k = room.countKind k) ∧
      (∀ j, (r.cups.getD j default).capacity = (room.cups.getD j default).capacity) ∧
      r.placeholders.length = 7 ∧ r.cups.length = 4 := by
  intro room c h
  induction h with
  | done room ho =>
    intro h1 h2
    exact ⟨room, ho, fun _ => rfl, fun _ => rfl, h1, h2⟩
  | step room r c rest hstep hrest ih =>
    intro h1 h2
    obtain ⟨hl1, hl2⟩ := lengths_legalStep hstep
    obtain ⟨r', ho1, ho2, ho3, ho4, ho5⟩ := ih (by omega) (by omega)
    exact ⟨r', ho1, fun k => (ho2 k).trans (countKind_legalStep hstep h1 h2 k),
      fun j => (ho3 j).trans (capacity_legalStep hstep j), ho4, ho5⟩

/-! ## Concrete boards used as witnesses and counterexamples -/

/-- The empty corridor. -/
def emptyPh : List (Option Amphipod) := [none, none, none, none, none, none, none]

/-- Capacity-1 board with the Amber and Bronze tokens swapped. -/
def swapRoom : Room :=
  Room.mk emptyPh
    [⟨1, [Amphipod.Bronze]⟩, ⟨1, [Amphipod.Amber]⟩, ⟨1, [Amphipod.Copper]⟩,
      ⟨1, [Amphipod.Desert]⟩]

/-- A board with no legal sorting: two Bronze tokens and no Amber token. -/
def badRoom : Room :=
  Room.mk emptyPh
    [⟨1, [Amphipod.Bronze]⟩, ⟨1, [Amphipod.Bronze]⟩, ⟨1, [Amphipod.Copper]⟩,
      ⟨1, [Amphipod.Desert]⟩]

theorem dest_zero_amber {a : Amphipod} (h : a.get_destination_cup_index = 0) :
    a = Amphipod.Amber := by
  cases a <;> simp [Amphipod.get_destination_cup_index] at h ⊢

theorem badRoom_unsolvable : ¬ ∃ c, SortsIn badRoom c := by
  rintro ⟨c, h⟩
  obtain ⟨r, ho, hcount, hcap, h7, h4⟩ := sortsIn_final h rfl rfl
  rw [is_ordered_iff] at ho
  cases hq : r.cups.get? 0 with
  | none =>
    rw [List.get?_eq_getElem?, List.getElem?_eq_none_iff] at hq
    omega
  | some cup0 =>
    obtain ⟨hlen, hdest⟩ := ho 0 cup0 hq
    have hcap0 : cup0.capacity = 1 := by
      have := hcap 0
      rw [List.getD_eq_get?, hq] at this
      simpa [badRoom, emptyPh] using this
    cases hcont : cup0.content with
    | nil =>
      rw [hcont] at hlen
      simp at hlen
      omega
    | cons a t =>
      have ha : a = Amphipod.Amber :=
        dest_zero_amber (hdest a (by rw [hcont]; exact List.mem_cons_self _ _))
      have h1 : 1 ≤ cupKind Amphipod.Amber 0 cup0 := by
        show 1 ≤ cup0.content.count Amphipod.Amber
        rw [hcont, ha, List.count_cons]
        simp
      have h2 : cupKind Amphipod.Amber 0 cup0
          ≤ sumIdxFrom (cupKind Amphipod.Amber) 0 r.cups := by
        have := sumIdxFrom_ge (cupKind Amphipod.Amber) cup0 r.cups 0 0 hq
        simpa using this
      have h3 := hcount Amphipod.Amber
      have h5 : badRoom.countKind Amphipod.Amber = 0 := rfl
      rw [h5] at h3
      unfold Room.countKind at h3
      omega

/-! ## Claim C5: settle is a terminating, idempotent fixpoint computation -/

/-- C5: the settle phase `progress` is a terminating fixpoint computation and
idempotent: on the settled state `try_progress` performs no move and returns
`false` leaving the state (board and accumulated cost) unchanged, so an
immediate second call to `progress` returns the settled state itself. -/
theorem c5_settle_idempotent (s : WalkState) :
    (s.progress).try_progress = (s.progress, false) ∧ (s.progress).progress = s.progress :=
  ⟨progress_fixpoint s, progress_progress_eq s⟩

/-! ## Claim C3: the pruning rule is strict comparison, not ≥ -/

/-- C3 counterexample: a popped state whose projected lower bound equals the
current best cost — the claim's ≥-rule demands discarding it — is in fact not
discarded: the loop settles and expands it, pushing successors onto the work
list instead of leaving it untouched. -/
theorem c3_counterexample :
    44 ≤ (WalkState.mk swapRoom 0).project_costs ∧
    simulateStep [⟨swapRoom, 0⟩] 44 ≠ some ([], 44) := by
  constructor
  · decide
  · decide

/-- C3 (amended): a popped state is discarded (no settling, no expansion, work
list and best cost otherwise untouched) exactly when its accumulated cost
strictly exceeds the best completed cost found so far or its projected lower
bound strictly exceeds that best cost; otherwise the state is settled and then
either recorded as a solution or expanded. -/
theorem c3_prune_strict (current : WalkState) (rest : List WalkState) (ms : Nat) :
    ((ms < current.cost ∨ ms < current.project_costs) →
      simulateStep (current :: rest) ms = some (rest, ms)) ∧
    (¬ (ms < current.cost ∨ ms < current.project_costs) →
      simulateStep (current :: rest) ms =
        some (if (current.progress).room.is_ordered then
            (rest, min ms (current.progress).cost)
          else ((current.progress).get_next_states.reverse ++ rest, ms))) := by
  constructor
  · intro h
    rw [simulateStep]
    by_cases h1 : ms < current.cost
    · rw [if_pos h1]
    · rw [if_neg h1, if_pos (by tauto)]
  · intro h
    push_neg at h
    rw [simulateStep, if_neg (by omega), if_neg (by omega)]
    by_cases ho : (current.progress).room.is_ordered = true
    · rw [if_pos ho, if_pos ho]
    · rw [if_neg ho, if_neg ho]

/-- C3 witness: at a concrete popped state whose projected bound strictly
exceeds the best, the loop discards it. -/
theorem c3_witness : simulateStep [⟨swapRoom, 0⟩] 0 = some ([], 0) :=
  (c3_prune_strict ⟨swapRoom, 0⟩ [] 0).1 (Or.inr (by decide))

/-! ## Claim C4: exhausting the work list returns the sentinel u32::MAX -/

/-- C4 counterexample: on a concrete board that admits no legal sorting
sequence, `simulate_ordering` returns the sentinel value `u32::MAX`
(4294967295) — there is no distinct "no solution" outcome. -/
theorem c4_counterexample :
    (¬ ∃ c, SortsIn badRoom c) ∧ simulate_ordering badRoom = 4294967295 :=
  ⟨badRoom_unsolvable, by decide⟩

/-- C4 (amended): when the input board admits no legal sorting sequence the
Solver terminates — every loop iteration strictly decreases the work-list
measure, whose initial value is exactly the fuel `simulate_ordering` allots —
after exhausting the work list, and returns the sentinel cost `u32::MAX`
(4294967295) rather than reporting a distinct "no solution" outcome. -/
theorem c4_unsolvable_sentinel :
    (∀ room0 : Room, (¬ ∃ c, SortsIn room0 c) → simulate_ordering room0 = U32_MAX) ∧
    (∀ (stack stack' : List WalkState) (ms ms' : Nat),
      simulateStep stack ms = some (stack', ms') →
      stackMeasure stack' < stackMeasure stack) :=
  ⟨fun _ h => simulate_ordering_unsolvable h,
    fun _ _ _ _ h => simulateStep_measure h⟩

/-- C4 witness: both parts instantiated on the concrete unsolvable board. -/
theorem c4_witness :
    simulate_ordering badRoom = U32_MAX ∧
    stackMeasure (((WalkState.mk badRoom 0).progress.get_next_states).reverse ++ [])
      < stackMeasure [⟨badRoom, 0⟩] :=
  ⟨c4_unsolvable_sentinel.1 badRoom badRoom_unsolvable,
    c4_unsolvable_sentinel.2 [⟨badRoom, 0⟩]
      (((WalkState.mk badRoom 0).progress.get_next_states).reverse ++ []) U32_MAX U32_MAX
      (by decide)⟩

/-! ## Claim C7: check_destination accepts exactly uncontaminated, non-full columns -/

/-- A board whose first column holds its own Amber token buried under a
mismatched Bronze token. -/
def trapRoom : Room :=
  Room.mk emptyPh
    [⟨2, [Amphipod.Bronze, Amphipod.Amber]⟩, ⟨2, []⟩, ⟨2, []⟩, ⟨2, []⟩]

/-- C7: `check_destination` returns true iff the column is not full and every
token currently in it has that column as its destination; in particular any
column containing a mismatched token — even one burying a correctly-destined
token — is rejected as a move destination. -/
theorem c7_check_destination (room : Room) (d : Nat) (cup : Cup)
    (h : room.cups.get? d = some cup) :
    (room.check_destination d = true ↔
      (cup.content.length ≠ cup.capacity ∧
        ∀ a ∈ cup.content, a.get_destination_cup_index = d)) ∧
    ((∃ b ∈ cup.content, b.get_destination_cup_index ≠ d) →
      room.check_destination d = false) := by
  have hgd : room.cups.getD d default = cup := by rw [List.getD_eq_get?, h]; rfl
  have hiff : room.check_destination d = true ↔
      (cup.content.length ≠ cup.capacity ∧
        ∀ a ∈ cup.content, a.get_destination_cup_index = d) := by
    constructor
    · intro hc
      obtain ⟨cap, cont, hq, hlen, hall⟩ := check_destination_elim hc
      rw [h] at hq
      obtain rfl : cup = ⟨cap, cont⟩ := Option.some_inj.mp hq
      rw [List.all_eq_true] at hall
      exact ⟨hlen, fun a ha => by simpa using hall a ha⟩
    · intro hcc
      obtain ⟨h1, h2⟩ := hcc
      unfold Room.check_destination
      rw [hgd]
      simp only [Bool.and_eq_true, List.all_eq_true]
      constructor
      · simp [Cup.is_full, h1]
      · intro a ha
        simp [h2 a ha]
  refine ⟨hiff, ?_⟩
  intro hex
  obtain ⟨b, hb, hbd⟩ := hex
  rcases Bool.eq_false_or_eq_true (room.check_destination d) with ht | hf
  · exact absurd ((hiff.mp ht).2 b hb) hbd
  · exact hf

/-- C7 witness: the trap column (own token buried under a mismatched one) is
rejected, and the iff evaluated on its two sides at a concrete column. -/
theorem c7_witness : trapRoom.check_destination 0 = false :=
  (c7_check_destination trapRoom 0 ⟨2, [Amphipod.Bronze, Amphipod.Amber]⟩ rfl).2
    ⟨Amphipod.Bronze, by decide, by decide⟩


/-! ## Claim C6: the per-move cost formulas -/

/-- The claim's literal cost formula for a corridor-slot→column move: vertical
component = the cells the token will be covered by after insertion (the cells
of the column strictly above its resting place), with no extra step for
leaving the corridor row.  Stated from the claim's wording, to be compared
with the code. -/
def specPlaceholderToDestinationCost (room : Room)
    (placeholder destination_cup_index : Nat) : Option Nat :=
  match room.cups.get? destination_cup_index with
  | none => none
  | some destination_cup =>
    match room.placeholders.getD placeholder none with
    | none => none
    | some amphipod =>
      match Room.PLACEHOLDER_POSITIONS.get? placeholder,
            Room.CUP_POSITIONS.get? destination_cup_index with
      | some php, some cupp =>
        some ((destination_cup.capacity - (destination_cup.content.length + 1)
          + Nat.dist php cupp) * amphipod.get_cost_per_move)
      | _, _ => none

/-- Corridor slot 0 holds a Bronze token; its destination column (capacity 2)
already holds one Bronze token. -/
def c6Room : Room :=
  Room.mk [some Amphipod.Bronze, none, none, none, none, none, none]
    [⟨1, [Amphipod.Amber]⟩, ⟨2, [Amphipod.Bronze]⟩, ⟨1, [Amphipod.Copper]⟩,
      ⟨1, [Amphipod.Desert]⟩]

/-- Two-capacity board used to exercise the direct column→column move. -/
def c6RoomB : Room :=
  Room.mk emptyPh
    [⟨2, [Amphipod.Bronze]⟩, ⟨2, [Amphipod.Bronze]⟩, ⟨1, [Amphipod.Copper]⟩,
      ⟨1, [Amphipod.Desert]⟩]

/-- C6 counterexample: for a concrete corridor→column move the code returns
cost 50, while the claim's formula (vertical component = cells covered by
after insertion) yields 40: the code charges one extra step for moving from
the corridor row into the column mouth. -/
theorem c6_counterexample :
    (Room.move_amphipod_from_placeholder_to_destination c6Room 0 1).map Prod.snd
        ≠ specPlaceholderToDestinationCost c6Room 0 1 ∧
    (Room.move_amphipod_from_placeholder_to_destination c6Room 0 1).map Prod.snd = some 50 ∧
    specPlaceholderToDestinationCost c6Room 0 1 = some 40 := by
  refine ⟨?_, ?_, ?_⟩ <;> decide

theorem get_set_self {α : Type _} {l : List α} {i : Nat} (x : α) (h : i < l.length) :
    (l.set i x).get? i = some x := by
  rw [List.get?_eq_getElem?, List.getElem?_set_self h]

/-- C6 (amended): each move primitive returns
(vertical cells moved out of origin + horizontal coordinate distance
 + vertical cells moved into destination, as applicable) × the token's
per-step multiplier, where for column→corridor the vertical component is the
cells remaining above the token in the origin after removal; for
corridor→column it is ONE MORE than the cells the token will be covered by
after insertion (the extra step carries the token from the corridor row into
the column); and for column→column both vertical components (cells above
after removal, cells covered by after insertion) apply plus 1 extra step for
the corridor. -/
theorem c6_move_costs :
    (∀ (room : Room) (i p : Nat) (r : Room) (c cap : Nat) (a : Amphipod)
        (rest : List Amphipod) (php cupp : Nat),
      room.cups.get? i = some ⟨cap, a :: rest⟩ →
      Room.PLACEHOLDER_POSITIONS.get? p = some php →
      Room.CUP_POSITIONS.get? i = some cupp →
      room.move_amphipod_to_placeholder i p = some (r, c) →
      c = (cap - rest.length + Nat.dist php cupp) * a.get_cost_per_move) ∧
    (∀ (room : Room) (p d : Nat) (r : Room) (c cap : Nat) (cont : List Amphipod)
        (a : Amphipod) (php cupp : Nat),
      room.cups.get? d = some ⟨cap, cont⟩ →
      room.placeholders.getD p none = some a →
      Room.PLACEHOLDER_POSITIONS.get? p = some php →
      Room.CUP_POSITIONS.get? d = some cupp →
      cont.length < cap →
      room.move_amphipod_from_placeholder_to_destination p d = some (r, c) →
      c = (1 + (cap - (cont.length + 1)) + Nat.dist php cupp) * a.get_cost_per_move) ∧
    (∀ (room : Room) (i d : Nat) (r : Room) (c capo : Nat) (a : Amphipod)
        (rest : List Amphipod) (capd : Nat) (cont : List Amphipod) (opos dpos : Nat),
      i ≠ d →
      room.cups.get? i = some ⟨capo, a :: rest⟩ →
      room.cups.get? d = some ⟨capd, cont⟩ →
      Room.CUP_POSITIONS.get? i = some opos →
      Room.CUP_POSITIONS.get? d = some dpos →
      cont.length < capd →
      room.move_amphipod_from_origin_to_destination i d = some (r, c) →
      c = (capo - rest.length + (capd - (cont.length + 1)) + 1 + Nat.dist opos dpos)
            * a.get_cost_per_move) := by
  refine ⟨?_, ?_, ?_⟩
  · intro room i p r c cap a rest php cupp hc hp hq hm
    obtain ⟨cap2, a2, rest2, php2, cupp2, hc2, hp2, hq2, hr, hcost⟩ :=
      move_to_placeholder_elim hm
    have he := hc.symm.trans hc2
    simp only [Option.some_inj, Cup.mk.injEq, List.cons.injEq] at he
    obtain ⟨rfl, rfl, rfl⟩ := he
    have hep : php2 = php := Option.some_inj.mp (hp.symm.trans hp2) |>.symm
    have heq : cupp2 = cupp := Option.some_inj.mp (hq.symm.trans hq2) |>.symm
    subst hep heq
    exact hcost
  · intro room p d r c cap cont a php cupp hc hg hp hq hlt hm
    obtain ⟨cap2, cont2, a2, php2, cupp2, hc2, hg2, hp2, hq2, hr, hcost⟩ :=
      move_from_placeholder_elim hm
    have he := hc.symm.trans hc2
    simp only [Option.some_inj, Cup.mk.injEq] at he
    obtain ⟨e1, e2⟩ := he
    subst e1
    subst e2
    have e3 : a = a2 := Option.some_inj.mp (hg.symm.trans hg2)
    subst e3
    have e4 : php = php2 := Option.some_inj.mp (hp.symm.trans hp2)
    subst e4
    have e5 : cupp = cupp2 := Option.some_inj.mp (hq.symm.trans hq2)
    subst e5
    rw [hcost]
    congr 1
    show 1 + cap - (a :: cont).length + Nat.dist php cupp
      = 1 + (cap - (cont.length + 1)) + Nat.dist php cupp
    simp only [List.length_cons]
    omega
  · intro room i d r c capo a rest capd cont opos dpos hne hc hd hop hdp hlt hm
    obtain ⟨capo2, a2, rest2, capd2, cont2, opos2, dpos2, ocup, dcup, hc2, hd2, hop2, hdp2,
      ho2, hdd2, hr, hcost⟩ := move_origin_destination_elim hm
    have he := hc.symm.trans hc2
    simp only [Option.some_inj, Cup.mk.injEq, List.cons.injEq] at he
    obtain ⟨e1, e2, e3⟩ := he
    subst e1
    subst e2
    subst e3
    have hd2' : (room.cups.set i ⟨capo, rest⟩).get? d = some ⟨capd, cont⟩ := by
      rw [List.get?_set_ne _ _ hne]
      exact hd
    have he2 := hd2'.symm.trans hd2
    simp only [Option.some_inj, Cup.mk.injEq] at he2
    obtain ⟨e4, e5⟩ := he2
    subst e4
    subst e5
    have hi : i < room.cups.length := by
      rw [List.get?_eq_getElem?, List.getElem?_eq_some_iff] at hc
      exact hc.1
    have hdlt : d < room.cups.length := by
      rw [List.get?_eq_getElem?, List.getElem?_eq_some_iff] at hd
      exact hd.1
    have hocup : ((room.cups.set i ⟨capo, rest⟩).set d ⟨capd, a :: cont⟩).get? i
        = some ⟨capo, rest⟩ := by
      rw [List.get?_set_ne _ _ (Ne.symm hne), get_set_self _ hi]
    have e6 : (⟨capo, rest⟩ : Cup) = ocup := Option.some_inj.mp (hocup.symm.trans ho2)
    subst e6
    have hdcup : ((room.cups.set i ⟨capo, rest⟩).set d ⟨capd, a :: cont⟩).get? d
        = some ⟨capd, a :: cont⟩ :=
      get_set_self _ (by rw [List.length_set]; exact hdlt)
    have e7 : (⟨capd, a :: cont⟩ : Cup) = dcup := Option.some_inj.mp (hdcup.symm.trans hdd2)
    subst e7
    have e8 : opos = opos2 := Option.some_inj.mp (hop.symm.trans hop2)
    subst e8
    have e9 : dpos = dpos2 := Option.some_inj.mp (hdp.symm.trans hdp2)
    subst e9
    rw [hcost]
    congr 1
    show capo - rest.length + capd - (a :: cont).length + 1 + Nat.dist opos dpos
      = capo - rest.length + (capd - (cont.length + 1)) + 1 + Nat.dist opos dpos
    simp only [List.length_cons]
    omega

/-- C6 witness: the three parts instantiated on concrete boards. -/
theorem c6_witness :
    (30 : Nat) = (1 - 0 + Nat.dist 0 2) * Amphipod.Bronze.get_cost_per_move ∧
    (50 : Nat) = (1 + (2 - (1 + 1)) + Nat.dist 0 4) * Amphipod.Bronze.get_cost_per_move ∧
    (50 : Nat) = (2 - 0 + (2 - (1 + 1)) + 1 + Nat.dist 2 4) * Amphipod.Bronze.get_cost_per_move := by
  refine ⟨?_, ?_, ?_⟩
  · exact c6_move_costs.1 swapRoom 0 0
      ⟨[some Amphipod.Bronze, none, none, none, none, none, none],
        [⟨1, []⟩, ⟨1, [Amphipod.Amber]⟩, ⟨1, [Amphipod.Copper]⟩, ⟨1, [Amphipod.Desert]⟩]⟩
      30 1 Amphipod.Bronze [] 0 2 rfl rfl rfl (by decide)
  · exact c6_move_costs.2.1 c6Room 0 1
      ⟨emptyPh,
        [⟨1, [Amphipod.Amber]⟩, ⟨2, [Amphipod.Bronze, Amphipod.Bronze]⟩,
          ⟨1, [Amphipod.Copper]⟩, ⟨1, [Amphipod.Desert]⟩]⟩
      50 2 [Amphipod.Bronze] Amphipod.Bronze 0 4 rfl rfl rfl rfl (by decide) (by decide)
  · exact c6_move_costs.2.2 c6RoomB 0 1
      ⟨emptyPh,
        [⟨2, []⟩, ⟨2, [Amphipod.Bronze, Amphipod.Bronze]⟩, ⟨1, [Amphipod.Copper]⟩,
          ⟨1, [Amphipod.Desert]⟩]⟩
      50 2 Amphipod.Bronze [] 2 [Amphipod.Bronze] 2 4 (by decide) rfl rfl rfl rfl
      (by decide) (by decide)

/-! ## Claim C9: move primitives cannot fail at their call sites -/

theorem getD_cup_get? {l : List Cup} {i : Nat} (h : i < l.length) :
    l.get? i = some (l.getD i default) := by
  rw [List.getD_eq_get?]
  cases hq : l.get? i with
  | none =>
    rw [List.get?_eq_getElem?, List.getElem?_eq_none_iff] at hq
    omega
  | some v => simp

theorem to_placeholder_isSome {room : Room} {i p : Nat} (hw : room.lengthsWf)
    (hi : i < 4) (hp : p < 7) (hne : (room.cups.getD i default).content ≠ []) :
    (room.move_amphipod_to_placeholder i p).isSome := by
  obtain ⟨h7, h4⟩ := hw
  have hget := @getD_cup_get? room.cups i (by omega)
  cases hcont : (room.cups.getD i default).content with
  | nil => exact absurd hcont hne
  | cons a rest =>
    have hc : room.cups.get? i = some ⟨(room.cups.getD i default).capacity, a :: rest⟩ := by
      rw [hget]
      congr 1
      rw [← hcont]
    rw [move_to_placeholder_intro room hc (placeholder_positions_get hp)
      (cup_positions_get hi)]
    rfl

theorem from_placeholder_isSome {room : Room} {p d : Nat} (hw : room.lengthsWf)
    (hd : d < 4) (hp : p < 7) (hne : room.placeholders.getD p none ≠ none) :
    (room.move_amphipod_from_placeholder_to_destination p d).isSome := by
  obtain ⟨h7, h4⟩ := hw
  cases hg : room.placeholders.getD p none with
  | none => exact absurd hg hne
  | some a =>
    have hget := @getD_cup_get? room.cups d (by omega)
    have hc : room.cups.get? d = some ⟨(room.cups.getD d default).capacity,
        (room.cups.getD d default).content⟩ := by
      rw [hget]
    rw [move_from_placeholder_intro room hc hg (placeholder_positions_get hp)
      (cup_positions_get hd)]
    rfl

theorem origin_destination_isSome {room : Room} {i d : Nat} (hw : room.lengthsWf)
    (hi : i < 4) (hd : d < 4) (hne : (room.cups.getD i default).content ≠ []) :
    (room.move_amphipod_from_origin_to_destination i d).isSome := by
  obtain ⟨h7, h4⟩ := hw
  have hget := @getD_cup_get? room.cups i (by omega)
  cases hcup : room.cups.getD i default with
  | mk cap content =>
    rw [hcup] at hne
    cases content with
    | nil => exact absurd rfl hne
    | cons a rest =>
      have hc : room.cups.get? i = some ⟨cap, a :: rest⟩ := by rw [hget, hcup]
      have hd1 : d < (room.cups.set i ⟨cap, rest⟩).length := by
        rw [List.length_set]
        omega
      cases hcup2 : (room.cups.set i ⟨cap, rest⟩).getD d default with
      | mk capd cont =>
        have hdc : (room.cups.set i ⟨cap, rest⟩).get? d = some ⟨capd, cont⟩ := by
          rw [getD_cup_get? hd1, hcup2]
        have hi2 : i < ((room.cups.set i ⟨cap, rest⟩).set d ⟨capd, a :: cont⟩).length := by
          rw [List.length_set, List.length_set]
          omega
        have hd2l : d < ((room.cups.set i ⟨cap, rest⟩).set d ⟨capd, a :: cont⟩).length := by
          rw [List.length_set, List.length_set]
          omega
        cases hcup3 : ((room.cups.set i ⟨cap, rest⟩).set d ⟨capd, a :: cont⟩).getD i default with
        | mk x1 x2 =>
          cases hcup4 : ((room.cups.set i ⟨cap, rest⟩).set d ⟨capd, a :: cont⟩).getD d default with
          | mk y1 y2 =>
            have ho : ((room.cups.set i ⟨cap, rest⟩).set d ⟨capd, a :: cont⟩).get? i
                = some ⟨x1, x2⟩ := by rw [getD_cup_get? hi2, hcup3]
            have hd2 : ((room.cups.set i ⟨cap, rest⟩).set d ⟨capd, a :: cont⟩).get? d
                = some ⟨y1, y2⟩ := by rw [getD_cup_get? hd2l, hcup4]
            rw [move_origin_destination_intro room hc hdc (cup_positions_get hi)
              (cup_positions_get hd) ho hd2]
            rfl

/-- C9: the three move primitives cannot fail when their legality
preconditions hold — origin cup in range and non-empty, or origin corridor
slot occupied, destination index in range — so their internal unwrap branches
are unreachable; and every call site in WalkState (successor generation, the
cup-scan settle rule and the corridor-scan settle rule) establishes these
preconditions via its legality checks before invoking them. -/
theorem c9_call_sites_safe :
    (∀ (room : Room) (i p : Nat), room.lengthsWf → i < 4 → p < 7 →
      (room.cups.getD i default).content ≠ [] →
      (room.move_amphipod_to_placeholder i p).isSome) ∧
    (∀ (room : Room) (p d : Nat), room.lengthsWf → d < 4 → p < 7 →
      room.placeholders.getD p none ≠ none →
      (room.move_amphipod_from_placeholder_to_destination p d).isSome) ∧
    (∀ (room : Room) (i d : Nat), room.lengthsWf → i < 4 → d < 4 →
      (room.cups.getD i default).content ≠ [] →
      (room.move_amphipod_from_origin_to_destination i d).isSome) ∧
    (∀ (s : WalkState) (i : Nat) (cup : Cup) (p : Nat), s.room.lengthsWf →
      s.room.cups.get? i = some cup →
      cup.content.all (fun a => a.get_destination_cup_index == i) = false →
      p ∈ s.room.get_available_placeholders i →
      (s.room.move_amphipod_to_placeholder i p).isSome) ∧
    (∀ (room : Room) (i : Nat) (a : Amphipod), room.lengthsWf →
      (room.cups.getD i default).content.head? = some a →
      room.check_destination a.get_destination_cup_index = true →
      (room.move_amphipod_from_origin_to_destination i
        a.get_destination_cup_index).isSome) ∧
    (∀ (room : Room) (p : Nat) (a : Amphipod), room.lengthsWf →
      room.placeholders.getD p none = some a →
      room.check_destination a.get_destination_cup_index = true →
      (room.move_amphipod_from_placeholder_to_destination p
        a.get_destination_cup_index).isSome) := by
  refine ⟨fun room i p hw hi hp hne => to_placeholder_isSome hw hi hp hne,
    fun room p d hw hd hp hne => from_placeholder_isSome hw hd hp hne,
    fun room i d hw hi hd hne => origin_destination_isSome hw hi hd hne,
    ?_, ?_, ?_⟩
  · intro s i cup p hw hget hall hp
    obtain ⟨h7, h4⟩ := hw
    have hi : i < s.room.cups.length := by
      rw [List.get?_eq_getElem?, List.getElem?_eq_some_iff] at hget
      exact hget.1
    have hav := available_placeholders_spec hp
    have hp7 : p < 7 := by
      rcases hav.2 with h' | h'
      · omega
      · omega
    apply to_placeholder_isSome ⟨h7, h4⟩ (by omega) hp7
    rw [List.getD_eq_get?, hget]
    simp only [Option.getD_some]
    intro hcc
    rw [hcc] at hall
    simp at hall
  · intro room i a hw hh hchk
    obtain ⟨cap, rest, hc⟩ := head_getD_elim hh
    obtain ⟨h7, h4⟩ := hw
    have hi : i < room.cups.length := by
      rw [List.get?_eq_getElem?, List.getElem?_eq_some_iff] at hc
      exact hc.1
    apply origin_destination_isSome ⟨h7, h4⟩ (by omega) (dest_lt_four a)
    rw [List.getD_eq_get?, hc]
    simp
  · intro room p a hw hg hchk
    obtain ⟨h7, h4⟩ := hw
    have hp := getD_ph_some hg
    have hplt : p < room.placeholders.length := by
      rw [List.get?_eq_getElem?, List.getElem?_eq_some_iff] at hp
      exact hp.1
    apply from_placeholder_isSome ⟨h7, h4⟩ (dest_lt_four a) (by omega)
    rw [hg]
    simp

/-- C9 witness: the three primitives succeed at concrete call-site
instances. -/
theorem c9_witness :
    (Room.move_amphipod_to_placeholder swapRoom 0 0).isSome = true ∧
    (Room.move_amphipod_from_origin_to_destination c6RoomB 0 1).isSome = true ∧
    (Room.move_amphipod_from_placeholder_to_destination c6Room 0 1).isSome = true :=
  ⟨c9_call_sites_safe.2.2.2.1 ⟨swapRoom, 0⟩ 0 ⟨1, [Amphipod.Bronze]⟩ 0 ⟨rfl, rfl⟩ rfl
      (by decide) (by decide),
    c9_call_sites_safe.2.2.2.2.1 c6RoomB 0 Amphipod.Bronze ⟨rfl, rfl⟩ rfl (by decide),
    c9_call_sites_safe.2.2.2.2.2 c6Room 0 Amphipod.Bronze ⟨rfl, rfl⟩ rfl (by decide)⟩

/-! ## Claim C10: settle never fills a corridor slot -/

/-- Number of occupied corridor slots. -/
def Room.occupiedCount (room : Room) : Nat :=
  sumIdxFrom placeholderPotential 0 room.placeholders

theorem getD_set_none_mono {l : List (Option Amphipod)} {p q : Nat} {a : Amphipod}
    (h : (l.set p none).getD q none = some a) : l.getD q none = some a := by
  by_cases hpq : p = q
  · subst hpq
    by_cases hlt : p < l.length
    · rw [List.getD_eq_get?, List.get?_eq_getElem?, List.getElem?_set_self hlt] at h
      simp at h
    · rw [List.set_eq_of_length_le (by omega)] at h
      exact h
  · rw [List.getD_eq_get?, List.get?_set_ne _ _ hpq] at h
    rw [List.getD_eq_get?]
    exact h

theorem get?_set_cases {l : List Cup} {i : Nat} {x : Cup} {j : Nat} {y : Cup}
    (h : (l.set i x).get? j = some y) :
    (i = j ∧ y = x) ∨ (i ≠ j ∧ l.get? j = some y) := by
  by_cases hij : i = j
  · subst hij
    left
    refine ⟨rfl, ?_⟩
    by_cases hlt : i < l.length
    · rw [get_set_self x hlt] at h
      exact (Option.some_inj.mp h).symm
    · rw [List.set_eq_of_length_le (by omega), List.get?_eq_getElem?,
        List.getElem?_eq_none (by omega)] at h
      exact absurd h (by simp)
  · right
    rw [List.get?_set_ne x l hij] at h
    exact ⟨hij, h⟩

/-- The before/after relation that the settle phase respects: corridor slots
are only ever emptied, every token now in a cup was already there or is home
there, and the corridor occupancy does not grow. -/
def SettleRel (s t : Room) : Prop :=
  (∀ p a, t.placeholders.getD p none = some a → s.placeholders.getD p none = some a) ∧
  (∀ i cup2, t.cups.get? i = some cup2 → ∀ a ∈ cup2.content,
    (∃ cup, s.cups.get? i = some cup ∧ a ∈ cup.content) ∨
      a.get_destination_cup_index = i) ∧
  t.occupiedCount ≤ s.occupiedCount

theorem settleRel_refl (s : Room) : SettleRel s s :=
  ⟨fun _ _ h => h, fun _ cup2 h a ha => Or.inl ⟨cup2, h, ha⟩, le_refl _⟩

theorem settleRel_trans {s t u : Room} (h1 : SettleRel s t) (h2 : SettleRel t u) :
    SettleRel s u := by
  refine ⟨fun p a h => h1.1 p a (h2.1 p a h), ?_, le_trans h2.2.2 h1.2.2⟩
  intro i cup2 hget a ha
  rcases h2.2.1 i cup2 hget a ha with ⟨cup, hc, hac⟩ | hd
  · exact h1.2.1 i cup hc a hac
  · exact Or.inr hd

theorem settleRel_direct {room : Room} {i : Nat} {a : Amphipod} {r : Room} {c : Nat}
    (hhead : (room.cups.getD i default).content.head? = some a)
    (hne : i ≠ a.get_destination_cup_index)
    (hm : room.move_amphipod_from_origin_to_destination i a.get_destination_cup_index
      = some (r, c)) :
    SettleRel room r := by
  obtain ⟨capo, a0, rest, capd, cont, opos, dpos, ocup, dcup, hc, hd, hop, hdp, ho, hd2,
    hr, hcost⟩ := move_origin_destination_elim hm
  obtain ⟨cap1, rest1, hc1⟩ := head_getD_elim hhead
  have hsame := hc1.symm.trans hc
  simp only [Option.some_inj, Cup.mk.injEq, List.cons.injEq] at hsame
  obtain ⟨e1, e2, e3⟩ := hsame
  subst e1
  subst e3
  subst e2
  subst hr
  have hdorig : room.cups.get? a.get_destination_cup_index = some ⟨capd, cont⟩ := by
    rw [← List.get?_set_ne (⟨cap1, rest1⟩ : Cup) room.cups hne]
    exact hd
  refine ⟨fun p b h => h, ?_, le_refl _⟩
  intro j cup2 hget b hb
  rcases get?_set_cases hget with ⟨hij, hy⟩ | ⟨hij, hget2⟩
  · subst hij
    subst hy
    rcases List.mem_cons.mp hb with hba | hbc
    · subst hba
      exact Or.inr rfl
    · exact Or.inl ⟨⟨capd, cont⟩, hdorig, hbc⟩
  · rcases get?_set_cases hget2 with ⟨hij2, hy⟩ | ⟨hij2, hget3⟩
    · subst hij2
      subst hy
      exact Or.inl ⟨⟨cap1, a :: rest1⟩, hc1, List.mem_cons_of_mem _ hb⟩
    · exact Or.inl ⟨cup2, hget3, hb⟩

theorem settleRel_from_placeholder {room : Room} {p : Nat} {a : Amphipod} {r : Room} {c : Nat}
    (hg : room.placeholders.getD p none = some a)
    (hm : room.move_amphipod_from_placeholder_to_destination p a.get_destination_cup_index
      = some (r, c)) :
    SettleRel room r := by
  obtain ⟨cap, cont, a2, php, cupp, hc, hg2, hp, hq, hr, hcost⟩ := move_from_placeholder_elim hm
  have ha : a = a2 := Option.some_inj.mp (hg.symm.trans hg2)
  subst ha
  subst hr
  refine ⟨fun q b h => getD_set_none_mono h, ?_, ?_⟩
  · intro j cup2 hget b hb
    rcases get?_set_cases hget with ⟨hij, hy⟩ | ⟨hij, hget2⟩
    · subst hij
      subst hy
      rcases List.mem_cons.mp hb with hba | hbc
      · subst hba
        exact Or.inr rfl
      · exact Or.inl ⟨⟨cap, cont⟩, hc, hbc⟩
    · exact Or.inl ⟨cup2, hget2, hb⟩
  · show sumIdxFrom placeholderPotential 0 (room.placeholders.set p none)
      ≤ sumIdxFrom placeholderPotential 0 room.placeholders
    have hph := sumIdx_set_f placeholderPotential (none : Option Amphipod)
      (getD_ph_some hg)
    have e1 : placeholderPotential p none = 0 := rfl
    have e2 : placeholderPotential p (some a) = 1 := rfl
    rw [e1, e2] at hph
    omega

theorem try_progress_settleRel (s : WalkState) : SettleRel s.room s.try_progress.1.room := by
  unfold WalkState.try_progress
  apply foldl_invariant (fun acc : WalkState × Bool => SettleRel s.room acc.1.room)
    WalkState.progress_placeholder_step
  · apply foldl_invariant (fun acc : WalkState × Bool => SettleRel s.room acc.1.room)
      WalkState.progress_cup_step
    · exact settleRel_refl _
    · intro b x hb
      rcases progress_cup_step_cases b x with heq | ⟨a, r, c, hh, hne, hchk, hpath, hm, heq⟩
      · rw [heq]; exact hb
      · rw [heq]
        exact settleRel_trans hb (settleRel_direct hh hne hm)
  · intro b x hb
    rcases progress_placeholder_step_cases b x with heq | ⟨a, r, c, hh, hchk, hpath, hm, heq⟩
    · rw [heq]; exact hb
    · rw [heq]
      exact settleRel_trans hb (settleRel_from_placeholder hh hm)

theorem progressFuel_settleRel : ∀ (fuel : Nat) (s : WalkState),
    SettleRel s.room (s.progressFuel fuel).room := by
  intro fuel
  induction fuel with
  | zero => intro s; exact settleRel_refl _
  | succ n ih =>
    intro s
    rw [WalkState.progressFuel]
    by_cases hb : s.try_progress.2 = true
    · rw [if_pos hb]
      exact settleRel_trans (try_progress_settleRel s) (ih s.try_progress.1)
    · rw [if_neg hb]
      exact settleRel_refl _

/-- C10: every settle move places the moved token directly into its own
destination cup; consequently settle never inserts a token into a corridor
slot (any slot occupied after `progress` was already occupied by the same
token before), every token found in a cup after settling either was already in
that cup or has that cup as its destination, and the number of occupied
corridor slots never increases across a call to `progress`. -/
theorem c10_settle_corridor_monotone (s : WalkState) :
    (∀ p a, (s.progress).room.placeholders.getD p none = some a →
      s.room.placeholders.getD p none = some a) ∧
    (∀ i cup2, (s.progress).room.cups.get? i = some cup2 → ∀ a ∈ cup2.content,
      (∃ cup, s.room.cups.get? i = some cup ∧ a ∈ cup.content) ∨
        a.get_destination_cup_index = i) ∧
    (s.progress).room.occupiedCount ≤ s.room.occupiedCount :=
  progressFuel_settleRel _ s

/-! ## Claim C8: token conservation across the search -/

theorem try_progress_countKind (s : WalkState) (k : Amphipod) :
    s.try_progress.1.room.countKind k = s.room.countKind k := by
  unfold WalkState.try_progress
  apply foldl_invariant
    (fun acc : WalkState × Bool => acc.1.room.countKind k = s.room.countKind k)
    WalkState.progress_placeholder_step
  · apply foldl_invariant
      (fun acc : WalkState × Bool => acc.1.room.countKind k = s.room.countKind k)
      WalkState.progress_cup_step
    · rfl
    · intro b x hb
      rcases progress_cup_step_cases b x with heq | ⟨a, r, c, hh, hne, hchk, hpath, hm, heq⟩
      · rw [heq]; exact hb
      · rw [heq]
        show r.countKind k = s.room.countKind k
        rw [countKind_direct hm k]
        exact hb
  · intro b x hb
    rcases progress_placeholder_step_cases b x with heq | ⟨a, r, c, hh, hchk, hpath, hm, heq⟩
    · rw [heq]; exact hb
    · rw [heq]
      show r.countKind k = s.room.countKind k
      rw [countKind_from_placeholder hm k]
      exact hb

theorem progressFuel_countKind : ∀ (fuel : Nat) (s : WalkState) (k : Amphipod),
    (s.progressFuel fuel).room.countKind k = s.room.countKind k := by
  intro fuel
  induction fuel with
  | zero => intro s k; rfl
  | succ n ih =>
    intro s k
    rw [WalkState.progressFuel]
    by_cases hb : s.try_progress.2 = true
    · rw [if_pos hb]
      rw [ih s.try_progress.1 k]
      exact try_progress_countKind s k
    · rw [if_neg hb]

theorem child_countKind {s x : WalkState} (hw : s.room.lengthsWf)
    (h : x ∈ s.get_next_states) (k : Amphipod) :
    x.room.countKind k = s.room.countKind k := by
  obtain ⟨i, cup, hget, hx⟩ := mem_get_next_states h
  obtain ⟨hnc, p, hp, r, c, hm, hxe⟩ := mem_expand_cup hx
  subst hxe
  have hav := available_placeholders_spec hp
  have hi : i < s.room.cups.length := by
    rw [List.get?_eq_getElem?, List.getElem?_eq_some_iff] at hget
    exact hget.1
  obtain ⟨h7, h4⟩ := hw
  have hplt : p < s.room.placeholders.length := by
    rcases hav.2 with h' | h'
    · omega
    · exact h'
  exact countKind_to_placeholder hm hav.1 hplt k

theorem searchReachable_conserve {init s : WalkState} (hw : init.room.lengthsWf)
    (h : SearchReachable init s) :
    s.room.lengthsWf ∧ ∀ k, s.room.countKind k = init.room.countKind k := by
  induction h with
  | refl => exact ⟨hw, fun _ => rfl⟩
  | settle t ht ih =>
    obtain ⟨ihw, ihc⟩ := ih
    obtain ⟨iw1, iw2⟩ := ihw
    obtain ⟨hl1, hl2⟩ := progress_lengths t
    refine ⟨⟨by omega, by omega⟩, fun k => ?_⟩
    rw [show t.progress = t.progressFuel (t.room.potential + 1) from rfl,
      progressFuel_countKind]
    exact ihc k
  | expand t s' ht hmem ih =>
    obtain ⟨ihw, ihc⟩ := ih
    obtain ⟨iw1, iw2⟩ := ihw
    obtain ⟨hl1, hl2⟩ := child_lengths hmem
    refine ⟨⟨by omega, by omega⟩, fun k => ?_⟩
    rw [child_countKind ⟨iw1, iw2⟩ hmem k]
    exact ihc k

/-- C8: token conservation: every state produced during the search — the
initial state, each settled state and each generated successor, iterated —
holds exactly the same number of tokens of each of the four kinds as the
initial board; no move primitive creates, destroys or overwrites a token. -/
theorem c8_conservation {init s : WalkState} (hw : init.room.lengthsWf)
    (h : SearchReachable init s) (k : Amphipod) :
    s.room.countKind k = init.room.countKind k :=
  (searchReachable_conserve hw h).2 k

/-- C8 witness: conservation instantiated on a concrete settled state. -/
theorem c8_witness :
    ((WalkState.mk swapRoom 0).progress).room.countKind Amphipod.Amber
      = swapRoom.countKind Amphipod.Amber :=
  @c8_conservation ⟨swapRoom, 0⟩ _ ⟨rfl, rfl⟩
    (SearchReachable.settle ⟨swapRoom, 0⟩ SearchReachable.refl) Amphipod.Amber

/-! ## Claim C2: well-formedness preservation along legal moves -/

theorem capsWf_set {l : List Cup} {i : Nat} {cup : Cup}
    (hw : ∀ c ∈ l, c.content.length ≤ c.capacity)
    (hcup : cup.content.length ≤ cup.capacity) :
    ∀ c ∈ l.set i cup, c.content.length ≤ c.capacity := by
  intro c hc
  rcases List.mem_or_eq_of_mem_set hc with hc' | hc'
  · exact hw c hc'
  · subst hc'
    exact hcup

theorem wf_legalStep {room r : Room} {c : Nat} (hw : room.wf) (h : LegalStep room r c) :
    r.wf := by
  obtain ⟨⟨h7, h4⟩, hcaps⟩ := hw
  obtain ⟨hl1, hl2⟩ := lengths_legalStep h
  refine ⟨⟨by omega, by omega⟩, ?_⟩
  cases h with
  | toPlaceholder i p r2 c2 hp hm =>
    obtain ⟨cap, a, rest, php, cupp, hc, hpp, hq, hr, hcost⟩ := move_to_placeholder_elim hm
    subst hr
    intro cup hcup
    refine capsWf_set hcaps ?_ cup hcup
    have := hcaps _ (List.get?_mem hc)
    simp only [List.length_cons] at this
    simp only
    omega
  | fromPlaceholder p a r2 c2 hg hchk hpath hm =>
    obtain ⟨cap, cont, a2, php, cupp, hc, hg2, hpp, hq, hr, hcost⟩ :=
      move_from_placeholder_elim hm
    subst hr
    intro cup hcup
    refine capsWf_set hcaps ?_ cup hcup
    obtain ⟨capc, contc, hqc, hclen, hall⟩ := check_destination_elim hchk
    have he := hqc.symm.trans hc
    simp only [Option.some_inj, Cup.mk.injEq] at he
    obtain ⟨e1, e2⟩ := he
    subst e1
    subst e2
    have := hcaps _ (List.get?_mem hc)
    simp only at this ⊢
    simp only [List.length_cons]
    omega
  | direct i a r2 c2 hh hne hchk hpath hm =>
    obtain ⟨capo, a0, rest, capd, cont, opos, dpos, ocup, dcup, hc, hd, hop, hdp, ho, hd2,
      hr, hcost⟩ := move_origin_destination_elim hm
    obtain ⟨cap1, rest1, hc1⟩ := head_getD_elim hh
    have hsame := hc1.symm.trans hc
    simp only [Option.some_inj, Cup.mk.injEq, List.cons.injEq] at hsame
    obtain ⟨e1, e2, e3⟩ := hsame
    subst e1
    subst e2
    subst e3
    subst hr
    have hdorig : room.cups.get? a.get_destination_cup_index = some ⟨capd, cont⟩ := by
      rw [← List.get?_set_ne (⟨cap1, rest1⟩ : Cup) room.cups hne]
      exact hd
    obtain ⟨capc, contc, hqc, hclen, hall⟩ := check_destination_elim hchk
    have he := hqc.symm.trans hdorig
    simp only [Option.some_inj, Cup.mk.injEq] at he
    obtain ⟨e4, e5⟩ := he
    subst e4
    subst e5
    have hwfi := hcaps _ (List.get?_mem hc1)
    have hwfd := hcaps _ (List.get?_mem hdorig)
    simp only [List.length_cons] at hwfi hwfd
    intro cup hcup
    refine capsWf_set (capsWf_set hcaps ?_) ?_ cup hcup
    · simp only
      omega
    · simp only [List.length_cons]
      omega

/-! ## Claim C2: the heuristic is consistent along every legal move -/

theorem getD_pos_of_get? {l : List Nat} {i v : Nat} (h : l.get? i = some v) :
    l.getD i 0 = v := by
  rw [List.getD_eq_get?, h]
  rfl

theorem cupTokenHeur_self (a : Amphipod) :
    cupTokenHeur a.get_destination_cup_index a = 0 := by
  unfold cupTokenHeur
  rw [if_neg (fun hcc => hcc rfl)]

theorem heur_consistent {room r : Room} {c : Nat} (hw : room.wf)
    (h : LegalStep room r c) : room.heur ≤ c + r.heur := by
  obtain ⟨⟨h7, h4⟩, hcaps⟩ := hw
  cases h with
  | toPlaceholder i p r2 c2 hp hm =>
    obtain ⟨cap, a, rest, php, cupp, hc, hpp, hq, hr, hcost⟩ := move_to_placeholder_elim hm
    subst hr
    have hav := available_placeholders_spec hp
    have hi : i < room.cups.length := by
      rw [List.get?_eq_getElem?, List.getElem?_eq_some_iff] at hc
      exact hc.1
    have hplt : p < room.placeholders.length := by
      rcases hav.2 with h' | h' <;> omega
    have hget : room.placeholders.get? p = some none := getD_ph_none_lt hav.1 hplt
    have hph := sumIdx_set_f phHeur (some a) hget
    have e0 : phHeur p none = 0 := rfl
    rw [e0] at hph
    have hcup := sumIdx_set_f cupHeur (⟨cap, rest⟩ : Cup) hc
    have e1 : cupHeur i ⟨cap, a :: rest⟩ = cupTokenHeur i a + cupHeur i ⟨cap, rest⟩ := rfl
    rw [e1] at hcup
    have hwfi := hcaps _ (List.get?_mem hc)
    simp only [List.length_cons] at hwfi
    have hkey : cupTokenHeur i a ≤ c + phHeur p (some a) := by
      rw [hcost]
      by_cases hne : i = a.get_destination_cup_index
      · rw [cupTokenHeur, if_neg (fun hcc => hcc hne)]
        exact Nat.zero_le _
      · rw [cupTokenHeur, if_pos hne]
        have ep : Room.PLACEHOLDER_POSITIONS.getD p 0 = php := getD_pos_of_get? hpp
        have eqq : Room.CUP_POSITIONS.getD i 0 = cupp := getD_pos_of_get? hq
        show (2 + Nat.dist (Room.CUP_POSITIONS.getD i 0)
            (Room.CUP_POSITIONS.getD a.get_destination_cup_index 0)) * a.get_cost_per_move
          ≤ _ + (1 + Nat.dist (Room.PLACEHOLDER_POSITIONS.getD p 0)
            (Room.CUP_POSITIONS.getD a.get_destination_cup_index 0)) * a.get_cost_per_move
        rw [ep, eqq]
        have htri : Nat.dist cupp (Room.CUP_POSITIONS.getD a.get_destination_cup_index 0)
            ≤ Nat.dist cupp php
              + Nat.dist php (Room.CUP_POSITIONS.getD a.get_destination_cup_index 0) :=
          Nat.dist.triangle_inequality _ _ _
        have hcomm : Nat.dist php cupp = Nat.dist cupp php := Nat.dist_comm _ _
        calc (2 + Nat.dist cupp (Room.CUP_POSITIONS.getD a.get_destination_cup_index 0))
              * a.get_cost_per_move
            ≤ ((cap - rest.length + Nat.dist php cupp)
                + (1 + Nat.dist php (Room.CUP_POSITIONS.getD a.get_destination_cup_index 0)))
                * a.get_cost_per_move := by
              apply Nat.mul_le_mul_right
              omega
          _ = _ := by rw [Nat.add_mul]
    show sumIdxFrom phHeur 0 room.placeholders + sumIdxFrom cupHeur 0 room.cups
      ≤ c + (sumIdxFrom phHeur 0 (room.placeholders.set p (some a))
        + sumIdxFrom cupHeur 0 (room.cups.set i ⟨cap, rest⟩))
    omega
  | fromPlaceholder p a r2 c2 hg hchk hpath hm =>
    obtain ⟨cap, cont, a2, php, cupp, hc, hg2, hpp, hq, hr, hcost⟩ :=
      move_from_placeholder_elim hm
    have e : a = a2 := Option.some_inj.mp (hg.symm.trans hg2)
    subst e
    subst hr
    obtain ⟨capc, contc, hqc, hclen, hall⟩ := check_destination_elim hchk
    have he := hqc.symm.trans hc
    simp only [Option.some_inj, Cup.mk.injEq] at he
    obtain ⟨e1, e2⟩ := he
    subst e1
    subst e2
    have hph := sumIdx_set_f phHeur (none : Option Amphipod) (getD_ph_some hg)
    have e0 : phHeur p none = 0 := rfl
    rw [e0] at hph
    have hcup := sumIdx_set_f cupHeur (⟨capc, a :: contc⟩ : Cup) hqc
    have e1' : cupHeur a.get_destination_cup_index ⟨capc, a :: contc⟩
        = cupTokenHeur a.get_destination_cup_index a
          + cupHeur a.get_destination_cup_index ⟨capc, contc⟩ := rfl
    rw [e1', cupTokenHeur_self] at hcup
    have hwfd := hcaps _ (List.get?_mem hqc)
    simp only at hwfd
    have hkey : phHeur p (some a) ≤ c := by
      rw [hcost]
      have ep : Room.PLACEHOLDER_POSITIONS.getD p 0 = php := getD_pos_of_get? hpp
      have eqq : Room.CUP_POSITIONS.getD a.get_destination_cup_index 0 = cupp :=
        getD_pos_of_get? hq
      show (1 + Nat.dist (Room.PLACEHOLDER_POSITIONS.getD p 0)
          (Room.CUP_POSITIONS.getD a.get_destination_cup_index 0)) * a.get_cost_per_move ≤ _
      rw [ep, eqq]
      apply Nat.mul_le_mul_right
      simp only [List.length_cons]
      omega
    show sumIdxFrom phHeur 0 room.placeholders + sumIdxFrom cupHeur 0 room.cups
      ≤ c + (sumIdxFrom phHeur 0 (room.placeholders.set p none)
        + sumIdxFrom cupHeur 0
          (room.cups.set a.get_destination_cup_index ⟨capc, a :: contc⟩))
    omega
  | direct i a r2 c2 hh hne hchk hpath hm =>
    obtain ⟨capo, a0, rest, capd, cont, opos, dpos, ocup, dcup, hc, hd, hop, hdp, ho, hd2,
      hr, hcost⟩ := move_origin_destination_elim hm
    obtain ⟨cap1, rest1, hc1⟩ := head_getD_elim hh
    have hsame := hc1.symm.trans hc
    simp only [Option.some_inj, Cup.mk.injEq, List.cons.injEq] at hsame
    obtain ⟨e1, e2, e3⟩ := hsame
    subst e1
    subst e2
    subst e3
    subst hr
    have hdorig : room.cups.get? a.get_destination_cup_index = some ⟨capd, cont⟩ := by
      rw [← List.get?_set_ne (⟨cap1, rest1⟩ : Cup) room.cups hne]
      exact hd
    obtain ⟨capc, contc, hqc, hclen, hall⟩ := check_destination_elim hchk
    have he := hqc.symm.trans hdorig
    simp only [Option.some_inj, Cup.mk.injEq] at he
    obtain ⟨e4, e5⟩ := he
    subst e4
    subst e5
    have hi : i < room.cups.length := by
      rw [List.get?_eq_getElem?, List.getElem?_eq_some_iff] at hc1
      exact hc1.1
    have hdlt : a.get_destination_cup_index < room.cups.length := by
      rw [List.get?_eq_getElem?, List.getElem?_eq_some_iff] at hdorig
      exact hdorig.1
    have hocup : ((room.cups.set i ⟨cap1, rest1⟩).set a.get_destination_cup_index
        ⟨capc, a :: contc⟩).get? i = some ⟨cap1, rest1⟩ := by
      rw [List.get?_set_ne _ _ (Ne.symm hne), get_set_self _ hi]
    have e6 : (⟨cap1, rest1⟩ : Cup) = ocup := Option.some_inj.mp (hocup.symm.trans ho)
    subst e6
    have hdcup : ((room.cups.set i ⟨cap1, rest1⟩).set a.get_destination_cup_index
        ⟨capc, a :: contc⟩).get? a.get_destination_cup_index
        = some ⟨capc, a :: contc⟩ :=
      get_set_self _ (by rw [List.length_set]; exact hdlt)
    have e7 : (⟨capc, a :: contc⟩ : Cup) = dcup := Option.some_inj.mp (hdcup.symm.trans hd2)
    subst e7
    have hcup1 := sumIdx_set_f cupHeur (⟨cap1, rest1⟩ : Cup) hc1
    have hcup2 := sumIdx_set_f cupHeur (⟨capc, a :: contc⟩ : Cup) hd
    have e1' : cupHeur i ⟨cap1, a :: rest1⟩ = cupTokenHeur i a + cupHeur i ⟨cap1, rest1⟩ := rfl
    have e2' : cupHeur a.get_destination_cup_index ⟨capc, a :: contc⟩
        = cupTokenHeur a.get_destination_cup_index a
          + cupHeur a.get_destination_cup_index ⟨capc, contc⟩ := rfl
    rw [e1'] at hcup1
    rw [e2', cupTokenHeur_self] at hcup2
    have hwfi := hcaps _ (List.get?_mem hc1)
    simp only [List.length_cons] at hwfi
    have hwfd := hcaps _ (List.get?_mem hdorig)
    simp only at hwfd
    have hkey : cupTokenHeur i a ≤ c := by
      rw [hcost]
      rw [cupTokenHeur, if_pos hne]
      have eo : Room.CUP_POSITIONS.getD i 0 = opos := getD_pos_of_get? hop
      have ed : Room.CUP_POSITIONS.getD a.get_destination_cup_index 0 = dpos :=
        getD_pos_of_get? hdp
      rw [eo, ed]
      show (2 + Nat.dist opos dpos) * a.get_cost_per_move
        ≤ (cap1 - rest1.length + capc - (a :: contc).length + 1 + Nat.dist opos dpos)
          * a.get_cost_per_move
      apply Nat.mul_le_mul_right
      simp only [List.length_cons]
      omega
    show sumIdxFrom phHeur 0 room.placeholders + sumIdxFrom cupHeur 0 room.cups
      ≤ c + (sumIdxFrom phHeur 0 room.placeholders
        + sumIdxFrom cupHeur 0 ((room.cups.set i ⟨cap1, rest1⟩).set
          a.get_destination_cup_index ⟨capc, a :: contc⟩))
    omega

theorem sumIdxFrom_eq_zero {f : Nat → α → Nat} :
    ∀ (l : List α) (n : Nat), (∀ i x, l.get? i = some x → f (n + i) x = 0) →
      sumIdxFrom f n l = 0 := by
  intro l
  induction l with
  | nil => intro n _; rfl
  | cons a t ih =>
    intro n h
    have h0 : f n a = 0 := by simpa using h 0 a (by simp)
    have ht : sumIdxFrom f (n + 1) t = 0 := by
      apply ih
      intro i x hx
      have := h (i + 1) x (by simpa using hx)
      have e : n + (i + 1) = n + 1 + i := by omega
      rwa [e] at this
    simp [sumIdxFrom, h0, ht]

theorem sumBy_eq_zero {f : α → Nat} :
    ∀ {l : List α}, (∀ a ∈ l, f a = 0) → sumBy f l = 0 := by
  intro l
  induction l with
  | nil => intro _; rfl
  | cons a t ih =>
    intro h
    have h0 := h a (by simp)
    have ht := ih fun x hx => h x (by simp [hx])
    simp [sumBy, h0, ht]

theorem dest_inj {a b : Amphipod}
    (h : a.get_destination_cup_index = b.get_destination_cup_index) : a = b := by
  revert h
  cases a <;> cases b <;> decide

theorem cupTokenHeur_home {i : Nat} {a : Amphipod}
    (h : a.get_destination_cup_index = i) : cupTokenHeur i a = 0 := by
  subst h
  exact cupTokenHeur_self a

theorem ordered_balanced_corridor_empty {room : Room}
    (hl : room.lengthsWf) (hb : room.balanced) (ho : room.is_ordered = true) :
    ∀ p slot, room.placeholders.get? p = some slot → slot = none := by
  intro p slot hp
  rw [is_ordered_iff] at ho
  by_contra hne
  obtain ⟨a, ha⟩ : ∃ a, slot = some a := by
    cases slot with
    | none => exact absurd rfl hne
    | some a => exact ⟨a, rfl⟩
  subst ha
  have hd4 : a.get_destination_cup_index < room.cups.length := by
    rw [hl.2]
    exact dest_lt_four a
  obtain ⟨cup, hcup⟩ : ∃ cup, room.cups.get? a.get_destination_cup_index = some cup := by
    rw [List.get?_eq_getElem?]
    exact ⟨_, List.getElem?_eq_getElem hd4⟩
  obtain ⟨hfull, hall⟩ := ho _ _ hcup
  have hcount : cupKind a a.get_destination_cup_index cup = cup.capacity := by
    unfold cupKind
    rw [List.count_eq_length.mpr, hfull]
    intro b hb2
    exact (dest_inj (hall b hb2)).symm
  have hge := sumIdxFrom_ge (cupKind a) cup room.cups 0 _ hcup
  rw [Nat.zero_add, hcount] at hge
  have hph1 : phKind a p (some a) = 1 := by simp [phKind]
  have hge2 := sumIdxFrom_ge (phKind a) (some a) room.placeholders 0 p hp
  rw [Nat.zero_add, hph1] at hge2
  have hbal := hb a
  unfold Room.countKind at hbal
  have hgd : room.cups.getD a.get_destination_cup_index default = cup := by
    rw [List.getD_eq_get?, hcup]
    rfl
  rw [hgd] at hbal
  omega

theorem heur_ordered_zero {room : Room} (hl : room.lengthsWf) (hb : room.balanced)
    (ho : room.is_ordered = true) : room.heur = 0 := by
  unfold Room.heur
  have hph : sumIdxFrom phHeur 0 room.placeholders = 0 := by
    apply sumIdxFrom_eq_zero
    intro i x hx
    have := ordered_balanced_corridor_empty hl hb ho i x hx
    subst this
    rfl
  have hcups : sumIdxFrom cupHeur 0 room.cups = 0 := by
    apply sumIdxFrom_eq_zero
    intro i cup hcup
    rw [is_ordered_iff] at ho
    obtain ⟨-, hall⟩ := ho _ _ hcup
    show cupHeur (0 + i) cup = 0
    rw [Nat.zero_add]
    exact sumBy_eq_zero fun a ha => cupTokenHeur_home (hall a ha)
  omega

theorem balanced_legalStep {room r : Room} {c : Nat} (h : LegalStep room r c)
    (hl : room.lengthsWf) (hb : room.balanced) : r.balanced := by
  intro k
  rw [countKind_legalStep h hl.1 hl.2 k, capacity_legalStep h k.get_destination_cup_index]
  exact hb k

theorem heur_le_sortsIn {room : Room} {c : Nat}
    (h : SortsIn room c) : room.wf → room.balanced → room.heur ≤ c := by
  induction h with
  | done r ho =>
    intro hw hb
    exact le_of_eq (heur_ordered_zero hw.1 hb ho)
  | step r r2 c1 rest hstep hrest ih =>
    intro hw hb
    have hw2 : r2.wf := wf_legalStep hw hstep
    have hb2 : r2.balanced := balanced_legalStep hstep hw.1 hb
    have h1 := heur_consistent hw hstep
    have h2 := ih hw2 hb2
    omega

/-- Intermediate boards of a concrete sorting sequence for `swapRoom`. -/
def c2r1 : Room :=
  ⟨[none, none, none, some Amphipod.Amber, none, none, none],
    [⟨1, [Amphipod.Bronze]⟩, ⟨1, []⟩, ⟨1, [Amphipod.Copper]⟩, ⟨1, [Amphipod.Desert]⟩]⟩

def c2r2 : Room :=
  ⟨[none, none, none, some Amphipod.Amber, none, none, none],
    [⟨1, []⟩, ⟨1, [Amphipod.Bronze]⟩, ⟨1, [Amphipod.Copper]⟩, ⟨1, [Amphipod.Desert]⟩]⟩

def c2r3 : Room :=
  ⟨[none, none, none, none, none, none, none],
    [⟨1, [Amphipod.Amber]⟩, ⟨1, [Amphipod.Bronze]⟩, ⟨1, [Amphipod.Copper]⟩,
      ⟨1, [Amphipod.Desert]⟩]⟩

theorem swapRoom_sorts : SortsIn swapRoom 46 := by
  have s1 : LegalStep swapRoom c2r1 2 :=
    LegalStep.toPlaceholder swapRoom 1 3 c2r1 2 (by decide) rfl
  have s2 : LegalStep c2r1 c2r2 40 :=
    LegalStep.direct c2r1 0 Amphipod.Bronze c2r2 40 rfl (by decide) rfl rfl rfl
  have s3 : LegalStep c2r2 c2r3 4 :=
    LegalStep.fromPlaceholder c2r2 3 Amphipod.Amber c2r3 4 rfl rfl rfl rfl
  have hdone : SortsIn c2r3 0 := SortsIn.done c2r3 (by decide)
  have h3 : SortsIn c2r2 4 := SortsIn.step _ _ _ _ s3 hdone
  have h2 : SortsIn c2r1 44 := SortsIn.step _ _ _ _ s2 h3
  exact SortsIn.step _ _ _ _ s1 h2

/-- C2: `project_costs` is an admissible lower bound.  On any well-formed,
balanced board, the projected cost of a search state never exceeds the state's
accumulated cost plus the cost of any legal move sequence that fully sorts the
board; in particular it never exceeds the true optimal completion cost. -/
theorem c2_project_costs_admissible (s : WalkState) (hw : s.room.wf)
    (hb : s.room.balanced) {c : Nat} (hs : SortsIn s.room c) :
    s.project_costs ≤ s.cost + c := by
  rw [project_costs_eq]
  have := heur_le_sortsIn hs hw hb
  omega

theorem c2_witness : (WalkState.mk swapRoom 5).project_costs ≤ 5 + 46 :=
  c2_project_costs_admissible ⟨swapRoom, 5⟩
    ⟨⟨rfl, rfl⟩, by unfold Room.capsWf; decide⟩
    (by unfold Room.balanced; decide)
    swapRoom_sorts
